import Mathlib

/-!
# grpc-go-course: calculator and blog services

A shallow embedding of the request handlers of
`calculator/calculator_server/server.go` and `blog/blog_server/server.go`.

* Go's `(response, error)` results, `log.Fatalf` and run-time panics are the
  four constructors of `Outcome`.
* `int32`/`int64`/`uint64` values are `Int`/`Nat`; arithmetic that can leave
  the machine range is wrapped explicitly (`wrapInt64`, `% 2 ^ 64`).
* A request stream is the list of messages it delivers followed by how it
  ends (`io.EOF` or a transport error); a response stream is the list of
  messages passed to `Send`.
* The bolt bucket is a list of key/value pairs kept in ascending bytewise key
  order together with the bucket's sequence counter; the protocol-buffer
  encoding of a blog is a parameter (`Codec`).
-/

namespace Grpc

/-- The status codes of `google.golang.org/grpc/codes` (numbered 0 to 16). -/
inductive Code where
  | OK | Canceled | Unknown | InvalidArgument | DeadlineExceeded | NotFound
  | AlreadyExists | PermissionDenied | ResourceExhausted | FailedPrecondition
  | Aborted | OutOfRange | Unimplemented | Internal | Unavailable | DataLoss
  | Unauthenticated
  deriving DecidableEq, Repr

/-- A Go `error` value: one built by `status.Error`/`status.Errorf`, or any
other error (here always one handed back by a library). -/
inductive GoError where
  | status (code : Code) (msg : String)
  | other (msg : String)
  deriving DecidableEq, Repr

/-- The code `status.Code` reports for an error: the code of a status error,
`Unknown` for any other error. -/
def GoError.code : GoError → Code
  | .status c _ => c
  | .other _ => Code.Unknown

/-- How a handler call ends: `ok resp` is `return resp, nil`, `err e` is
`return nil, e`, `exit` is `log.Fatalf` (the process terminates) and `crash`
is a run-time panic. -/
inductive Outcome (α : Type) where
  | ok (resp : α)
  | err (e : GoError)
  | exit (msg : String)
  | crash (msg : String)
  deriving Repr

/-- The response of a call that returned one. -/
def Outcome.response {α : Type} : Outcome α → Option α
  | .ok r => some r
  | _ => none

/-- The status code of the error of a call that returned one. -/
def Outcome.errCode {α : Type} : Outcome α → Option Code
  | .err e => some e.code
  | _ => none

/-- How a request stream ends: `Recv` returns `io.EOF`, or another error. -/
inductive RecvEnd where
  | eof
  | failure (msg : String)
  deriving DecidableEq, Repr

/-- Two's-complement wrap-around of an `int64` result. -/
def wrapInt64 (x : Int) : Int := (x + 2 ^ 63) % 2 ^ 64 - 2 ^ 63

end Grpc

namespace Calculator

open Grpc

/-- The message `calculatorpb.SquareRootResponse`. -/
structure SquareRootResponse where
  NumberRoot : Float

/-- The message `calculatorpb.FindMaximumResponse`. -/
structure FindMaximumResponse where
  Max : Int
  deriving DecidableEq, Repr

/-- The message `calculatorpb.ComputeAverageResponse`. -/
structure ComputeAverageResponse where
  Average : Float

/-- The handler `SquareRoot` of the calculator server, on the `int32` number
of the request. -/
def SquareRoot (number : Int) : Outcome SquareRootResponse :=
  if number < 0 then
    .err (.status Code.InvalidArgument
      ("Received a negative number: " ++ toString number))
  else
    .ok { NumberRoot := Float.sqrt (Float.ofInt number) }

/-- The loop of `DecompositeNumber`: `number` is what is left of the request's
number, `sent` the prime factors already passed to `stream.Send`. One unit of
`fuel` is one iteration; `none` means the fuel ran out before the loop ended.
`%` and `/` are Go's truncated `int64` operations (a zero divisor panics). -/
def decompositeLoop : Nat → Int → Int → List Int → Option (Outcome Unit × List Int)
  | 0, _, _, _ => none
  | fuel + 1, number, divisor, sent =>
    if number > 1 then
      if divisor = 0 then
        some (.crash "integer divide by zero", sent)
      else if number.tmod divisor = 0 then
        decompositeLoop fuel (wrapInt64 (number.tdiv divisor)) divisor (sent ++ [divisor])
      else
        decompositeLoop fuel number (wrapInt64 (divisor + 1)) sent
    else
      some (.ok (), sent)

/-- The handler `DecompositeNumber`: the loop started with divisor 2 and
nothing sent, run for at most `fuel` iterations. -/
def DecompositeNumber (number : Int) (fuel : Nat) : Option (Outcome Unit × List Int) :=
  decompositeLoop fuel number 2 []

/-- The loop of `ComputeAverage` over the numbers still to be received; `sum`
is an `int64`, `count` a 64-bit `int`. -/
def computeAverageLoop (sum count : Int) : List Int → RecvEnd →
    Outcome Unit × List ComputeAverageResponse
  | [], .eof =>
    (.ok (), [{ Average := Float.ofInt sum / Float.ofInt count }])
  | [], .failure msg =>
    (.exit ("Error while reading client stream: " ++ msg), [])
  | x :: rest, e =>
    computeAverageLoop (wrapInt64 (sum + x)) (wrapInt64 (count + 1)) rest e

/-- The handler `ComputeAverage` on a request stream delivering `numbers`. -/
def ComputeAverage (numbers : List Int) (e : RecvEnd) :
    Outcome Unit × List ComputeAverageResponse :=
  computeAverageLoop 0 0 numbers e

/-- The loop of `FindMaximum` over the numbers still to be received; `sent`
holds the responses already sent. `sendBudget` is the number of calls of
`stream.Send` the transport still accepts (`none`: it never fails). -/
def findMaximumLoop (maxNum : Int) (sent : List FindMaximumResponse)
    (sendBudget : Option Nat) : List Int → RecvEnd →
    Outcome Unit × List FindMaximumResponse
  | [], .eof => (.ok (), sent)
  | [], .failure msg => (.exit ("Error while reading stream request: " ++ msg), sent)
  | currentNum :: rest, e =>
    if currentNum > maxNum then
      match sendBudget with
      | some 0 => (.exit "Error while sending stream response: <nil>", sent)
      | some (k + 1) =>
        findMaximumLoop currentNum (sent ++ [{ Max := currentNum }]) (some k) rest e
      | none =>
        findMaximumLoop currentNum (sent ++ [{ Max := currentNum }]) none rest e
    else
      findMaximumLoop maxNum sent sendBudget rest e

/-- The handler `FindMaximum`: `maxNum` starts at `int32(0)`. -/
def FindMaximum (numbers : List Int) (e : RecvEnd) (sendBudget : Option Nat) :
    Outcome Unit × List FindMaximumResponse :=
  findMaximumLoop 0 [] sendBudget numbers e

/-- The numbers of a stream that are strictly greater than every number
received before them, in order of arrival; `before` holds the numbers already
received. -/
def strictRecords (before : List Int) : List Int → List Int
  | [] => []
  | x :: rest =>
    if before.all (fun y => decide (y < x)) then x :: strictRecords (before ++ [x]) rest
    else strictRecords (before ++ [x]) rest

/-- A prime number: at least 2 and with no positive divisor other than 1 and
itself. -/
def IsPrimeNumber (p : Int) : Prop :=
  2 ≤ p ∧ ∀ d : Int, 0 < d → d ∣ p → d = 1 ∨ d = p

/-- The states `(number, divisor)` in which the body of the loop of
`DecompositeNumber` runs, in order, for at most `fuel` iterations: the same
test and the same two updates as `decompositeLoop`. -/
def decompositeStates : Nat → Int → Int → List (Int × Int)
  | 0, _, _ => []
  | fuel + 1, number, divisor =>
    if number > 1 then
      (number, divisor) ::
        (if divisor = 0 then []
         else if number.tmod divisor = 0 then
           decompositeStates fuel (wrapInt64 (number.tdiv divisor)) divisor
         else decompositeStates fuel number (wrapInt64 (divisor + 1)))
    else []

end Calculator

namespace BlogServer

open Grpc

/-- A byte string (`[]byte`); every element written by this program is below 256. -/
abbrev Bytes := List Nat

/-- The message `blogpb.Blog`; `Id` is a `uint64`. -/
structure Blog where
  Id : Nat
  AuthorId : String
  Title : String
  Content : String
  deriving DecidableEq, Repr

/-- The function `uitob`: the 8 bytes of `binary.BigEndian.PutUint64`. -/
def uitob (v : Nat) : Bytes :=
  [v / 2 ^ 56 % 256, v / 2 ^ 48 % 256, v / 2 ^ 40 % 256, v / 2 ^ 32 % 256,
   v / 2 ^ 24 % 256, v / 2 ^ 16 % 256, v / 2 ^ 8 % 256, v % 256]

/-- The function `btoui`: `binary.BigEndian.Uint64` reads the first 8 bytes and
panics (`none`) on a shorter slice. -/
def btoui : Bytes → Option Nat
  | b0 :: b1 :: b2 :: b3 :: b4 :: b5 :: b6 :: b7 :: _ =>
    some (b0 * 2 ^ 56 + b1 * 2 ^ 48 + b2 * 2 ^ 40 + b3 * 2 ^ 32 +
      b4 * 2 ^ 24 + b5 * 2 ^ 16 + b6 * 2 ^ 8 + b7)
  | _ => none

/-- Go's `bytes.Compare`, the key order of a bolt bucket. -/
def bytesCompare : Bytes → Bytes → Ordering
  | [], [] => .eq
  | [], _ :: _ => .lt
  | _ :: _, [] => .gt
  | a :: as, b :: bs =>
    if a < b then .lt else if b < a then .gt else bytesCompare as bs

/-- The value stored under `key`, if any. -/
def lookupKey (key : Bytes) : List (Bytes × Bytes) → Option Bytes
  | [] => none
  | (k, v) :: rest => if k = key then some v else lookupKey key rest

/-- Store `value` under `key` in a list kept in ascending key order, replacing
the value of a key already present. -/
def insertEntry (key value : Bytes) : List (Bytes × Bytes) → List (Bytes × Bytes)
  | [] => [(key, value)]
  | (k, v) :: rest =>
    match bytesCompare key k with
    | .lt => (key, value) :: (k, v) :: rest
    | .eq => (key, value) :: rest
    | .gt => (k, v) :: insertEntry key value rest

/-- Remove `key` and its value. -/
def eraseKey (key : Bytes) (entries : List (Bytes × Bytes)) : List (Bytes × Bytes) :=
  entries.filter (fun e => decide (e.1 ≠ key))

/-- Keys strictly ascending in `bytes.Compare` order. -/
def KeysAscending (entries : List (Bytes × Bytes)) : Prop :=
  entries.Pairwise (fun a b => bytesCompare a.1 b.1 = Ordering.lt)

theorem bytesCompare_eq_iff (a b : Bytes) : bytesCompare a b = Ordering.eq ↔ a = b := by
  induction a generalizing b with
  | nil => cases b <;> simp [bytesCompare]
  | cons x xs ih =>
    cases b with
    | nil => simp [bytesCompare]
    | cons y ys =>
      simp only [bytesCompare]
      split_ifs with h1 h2
      · simp; intro h; omega
      · simp; intro h; omega
      · have : x = y := by omega
        simp [ih, this]

theorem bytesCompare_gt_iff (a b : Bytes) :
    bytesCompare a b = Ordering.gt ↔ bytesCompare b a = Ordering.lt := by
  induction a generalizing b with
  | nil => cases b <;> simp [bytesCompare]
  | cons x xs ih =>
    cases b with
    | nil => simp [bytesCompare]
    | cons y ys =>
      simp only [bytesCompare]
      split_ifs <;> first | omega | simp | exact ih ys

theorem bytesCompare_lt_trans (a b c : Bytes) (h1 : bytesCompare a b = Ordering.lt)
    (h2 : bytesCompare b c = Ordering.lt) : bytesCompare a c = Ordering.lt := by
  induction a generalizing b c with
  | nil =>
    cases b with
    | nil => simp [bytesCompare] at h1
    | cons y ys =>
      cases c with
      | nil => simp [bytesCompare] at h2
      | cons z zs => simp [bytesCompare]
  | cons x xs ih =>
    cases b with
    | nil => simp [bytesCompare] at h1
    | cons y ys =>
      cases c with
      | nil => simp [bytesCompare] at h2
      | cons z zs =>
        simp only [bytesCompare] at h1 h2 ⊢
        split_ifs at h1 h2 ⊢ <;> first | omega | rfl | exact ih ys zs h1 h2

theorem mem_insertEntry (key value : Bytes) (entries : List (Bytes × Bytes))
    (e : Bytes × Bytes) (h : e ∈ insertEntry key value entries) :
    e = (key, value) ∨ e ∈ entries := by
  induction entries with
  | nil => simpa [insertEntry] using h
  | cons hd tl ih =>
    obtain ⟨k, v⟩ := hd
    simp only [insertEntry] at h
    split at h
    · simp only [List.mem_cons] at h ⊢; tauto
    · simp only [List.mem_cons] at h ⊢; tauto
    · simp only [List.mem_cons] at h ⊢
      rcases h with h | h
      · tauto
      · rcases ih h with h | h <;> tauto

theorem insertEntry_ascending (key value : Bytes) (entries : List (Bytes × Bytes))
    (h : KeysAscending entries) : KeysAscending (insertEntry key value entries) := by
  unfold KeysAscending at h ⊢
  induction entries with
  | nil => simp [insertEntry]
  | cons hd tl ih =>
    obtain ⟨k, v⟩ := hd
    rw [List.pairwise_cons] at h
    simp only [insertEntry]
    split
    next hlt =>
      refine List.pairwise_cons.2 ⟨?_, List.pairwise_cons.2 h⟩
      intro e he
      rcases List.mem_cons.1 he with rfl | he
      · exact hlt
      · exact bytesCompare_lt_trans _ _ _ hlt (h.1 e he)
    next heq =>
      have hk : key = k := (bytesCompare_eq_iff _ _).1 heq
      subst hk
      exact List.pairwise_cons.2 ⟨h.1, h.2⟩
    next hgt =>
      refine List.pairwise_cons.2 ⟨?_, ih h.2⟩
      intro e he
      rcases mem_insertEntry _ _ _ _ he with rfl | he
      · exact (bytesCompare_gt_iff _ _).1 hgt
      · exact h.1 e he

theorem eraseKey_ascending (key : Bytes) (entries : List (Bytes × Bytes))
    (h : KeysAscending entries) : KeysAscending (eraseKey key entries) :=
  List.Pairwise.sublist (List.filter_sublist _) h

/-- The bolt bucket `"Blog"`: its key/value pairs in ascending key order and
its sequence counter (a `uint64`). -/
structure Bucket where
  entries : List (Bytes × Bytes)
  sequence : Nat
  ascending : KeysAscending entries

/-- The bucket `setupDB` creates in a new database file. -/
def Bucket.empty : Bucket := ⟨[], 0, List.Pairwise.nil⟩

/-- Bolt's `MaxKeySize`. -/
def MaxKeySize : Nat := 32768

/-- Bolt's `MaxValueSize`, `(1 << 31) - 2`. -/
def MaxValueSize : Nat := 2 ^ 31 - 2

/-- `Bucket.Get`: the value of `key`, `none` (a nil slice) when it is absent. -/
def Bucket.Get (b : Bucket) (key : Bytes) : Option Bytes :=
  lookupKey key b.entries

/-- `Bucket.Put` in a writable transaction: refuses an empty key, a key longer
than `MaxKeySize` and a value longer than `MaxValueSize`. -/
def Bucket.Put (b : Bucket) (key value : Bytes) : Except String Bucket :=
  if key.length = 0 then .error "key required"
  else if key.length > MaxKeySize then .error "key too large"
  else if value.length > MaxValueSize then .error "value too large"
  else .ok ⟨insertEntry key value b.entries, b.sequence,
    insertEntry_ascending key value b.entries b.ascending⟩

/-- `Bucket.Delete` in a writable transaction (no error when the key is absent). -/
def Bucket.Delete (b : Bucket) (key : Bytes) : Bucket :=
  ⟨eraseKey key b.entries, b.sequence, eraseKey_ascending key b.entries b.ascending⟩

/-- `Bucket.NextSequence` in a writable transaction: increments the `uint64`
counter and returns it. -/
def Bucket.NextSequence (b : Bucket) : Nat × Bucket :=
  ((b.sequence + 1) % 2 ^ 64, ⟨b.entries, (b.sequence + 1) % 2 ^ 64, b.ascending⟩)

/-- The protocol-buffer encoding of a blog, `proto.Marshal` on a `*blogpb.Blog`
(`none` is the nil pointer) and `proto.Unmarshal` into a fresh `blogpb.Blog`;
either may fail with the library's error text. -/
structure Codec where
  marshal : Option Blog → Except String Bytes
  unmarshal : Bytes → Except String Blog

/-- The message `blogpb.CreateBlogRequest`; `Blog` may be a nil pointer. -/
structure CreateBlogRequest where
  Blog : Option Blog
  deriving DecidableEq, Repr

/-- The message `blogpb.CreateBlogResponse`. -/
structure CreateBlogResponse where
  Blog : Option Blog
  deriving DecidableEq, Repr

/-- The message `blogpb.ReadBlogRequest`; `BlogId` is a `uint64`. -/
structure ReadBlogRequest where
  BlogId : Nat
  deriving DecidableEq, Repr

/-- The message `blogpb.ReadBlogResponse`. -/
structure ReadBlogResponse where
  Blog : Option Blog
  deriving DecidableEq, Repr

/-- The message `blogpb.UpdateBlogRequest`; `Blog` may be a nil pointer. -/
structure UpdateBlogRequest where
  Blog : Option Blog
  deriving DecidableEq, Repr

/-- The message `blogpb.UpdateBlogResponse`. -/
structure UpdateBlogResponse where
  Blog : Option Blog
  deriving DecidableEq, Repr

/-- The message `blogpb.DeleteBlogRequest`; `BlogId` is a `uint64`. -/
structure DeleteBlogRequest where
  BlogId : Nat
  deriving DecidableEq, Repr

/-- The message `blogpb.DeleteBlogResponse`. -/
structure DeleteBlogResponse where
  BlogId : Nat
  deriving DecidableEq, Repr

/-- The message `blogpb.ListBlogResponse`. -/
structure ListBlogResponse where
  Blog : Option Blog
  deriving DecidableEq, Repr

/-- The generated getter `(*Blog).GetId`, which returns 0 on a nil pointer. -/
def getId : Option Blog → Nat
  | none => 0
  | some blog => blog.Id

/-- The error both `UpdateBlog`, `ReadBlog` and `DeleteBlog` build for a key
without a value: `status.Error(codes.NotFound, ...)` with `btoui(id)` in its
text (`btoui` panics on a slice shorter than 8 bytes). -/
def notFound {α : Type} (id : Bytes) : Outcome α :=
  match btoui id with
  | some n =>
    .err (.status Code.NotFound ("Could not find blog with id " ++ toString n ++ "\n"))
  | none => .crash "index out of range"

/-- The debugging scan of `DeleteBlog`: a cursor walk over the bucket that
unmarshals every value and stops at the first value that fails, returning the
error. -/
def printBlogs (codec : Codec) : List (Bytes × Bytes) → Option String
  | [] => none
  | (_, v) :: rest =>
    match codec.unmarshal v with
    | .error e => some e
    | .ok _ => printBlogs codec rest

/-- The cursor walk of `ListBlog`; `sent` holds the responses already passed to
`stream.Send` (whose result the handler ignores). -/
def listBlogLoop (codec : Codec) (sent : List ListBlogResponse) :
    List (Bytes × Bytes) → Outcome Unit × List ListBlogResponse
  | [] => (.ok (), sent)
  | (_, v) :: rest =>
    match codec.unmarshal v with
    | .error e =>
      (.err (.status Code.Internal ("Unmarshal error: " ++ e ++ "\n")), sent)
    | .ok blog => listBlogLoop codec (sent ++ [{ Blog := some blog }]) rest

/-- The handler `ListBlog` (a read-only transaction). -/
def ListBlog (codec : Codec) (db : Bucket) : Outcome Unit × List ListBlogResponse :=
  listBlogLoop codec [] db.entries

/-- The handler `DeleteBlog`: the outcome and the bucket after the call. The
two scans end the process when a stored value does not unmarshal; the update
transaction is rolled back when the key has no value. -/
def DeleteBlog (codec : Codec) (db : Bucket) (req : DeleteBlogRequest) :
    Outcome DeleteBlogResponse × Bucket :=
  let id := uitob req.BlogId
  match printBlogs codec db.entries with
  | some e => (.exit ("Something went wrong: " ++ e ++ "\n\n"), db)
  | none =>
    match db.Get id with
    | none => (notFound id, db)
    | some _ =>
      let db' := db.Delete id
      match printBlogs codec db'.entries with
      | some e => (.exit ("Something went wrong: " ++ e ++ "\n\n"), db')
      | none => (.ok { BlogId := req.BlogId }, db')

/-- The handler `UpdateBlog`: the outcome and the bucket after the call. An
error returned inside the update transaction rolls it back and is returned to
the caller as it is. -/
def UpdateBlog (codec : Codec) (db : Bucket) (req : UpdateBlogRequest) :
    Outcome UpdateBlogResponse × Bucket :=
  let blog := req.Blog
  let id := uitob (getId blog)
  match db.Get id with
  | none => (notFound id, db)
  | some _ =>
    match codec.marshal blog with
    | .error e => (.err (.other e), db)
    | .ok serializedBlogPost =>
      match db.Put id serializedBlogPost with
      | .error e => (.err (.other e), db)
      | .ok db' => (.ok { Blog := blog }, db')

/-- The handler `ReadBlog` (a read-only transaction). -/
def ReadBlog (codec : Codec) (db : Bucket) (req : ReadBlogRequest) :
    Outcome ReadBlogResponse :=
  let id := uitob req.BlogId
  match db.Get id with
  | none => notFound id
  | some blogBytes =>
    match codec.unmarshal blogBytes with
    | .error e =>
      .err (.status Code.Internal ("Error while Unmarshaling: " ++ e ++ "\n"))
    | .ok blog => .ok { Blog := some blog }

/-- The handler `CreateBlog`: the outcome and the bucket after the call.
Assigning `blog.Id` through a nil `blog` panics; an error inside the update
transaction rolls it back (the sequence counter included) and ends the process
in `log.Fatalf`. -/
def CreateBlog (codec : Codec) (db : Bucket) (req : CreateBlogRequest) :
    Outcome CreateBlogResponse × Bucket :=
  match req.Blog with
  | none => (.crash "invalid memory address or nil pointer dereference", db)
  | some blog =>
    let (seq, b) := db.NextSequence
    let blog := { blog with Id := seq }
    match codec.marshal (some blog) with
    | .error e => (.exit ("Could not create blog: " ++ e), db)
    | .ok serializedBlogPost =>
      match b.Put (uitob blog.Id) serializedBlogPost with
      | .error e => (.exit ("Could not create blog: " ++ e), db)
      | .ok db' => (.ok { Blog := some blog }, db')

/-- One call of a handler that writes to the bucket. -/
inductive Call where
  | create (req : CreateBlogRequest)
  | update (req : UpdateBlogRequest)
  | delete (req : DeleteBlogRequest)
  deriving DecidableEq, Repr

/-- The bucket after a call. The database file outlives the process, so this
is also the bucket the next call finds after `log.Fatalf` or a panic. -/
def Call.next (codec : Codec) (db : Bucket) : Call → Bucket
  | .create req => (CreateBlog codec db req).2
  | .update req => (UpdateBlog codec db req).2
  | .delete req => (DeleteBlog codec db req).2

/-- The identifier a call assigned: the id of the blog in the response of a
`CreateBlog` that returned one. -/
def Call.assigned (codec : Codec) (db : Bucket) : Call → Option Nat
  | .create req =>
    match (CreateBlog codec db req).1 with
    | .ok resp => resp.Blog.map (fun blog => blog.Id)
    | _ => none
  | _ => none

/-- The bucket after a sequence of calls. -/
def runCalls (codec : Codec) (db : Bucket) : List Call → Bucket
  | [] => db
  | c :: rest => runCalls codec (c.next codec db) rest

/-- The identifiers assigned by the `CreateBlog` calls of a sequence, in order. -/
def assignedIds (codec : Codec) (db : Bucket) : List Call → List Nat
  | [] => []
  | c :: rest =>
    match c.assigned codec db with
    | some id => id :: assignedIds codec (c.next codec db) rest
    | none => assignedIds codec (c.next codec db) rest

/-- Four bytes, most significant first. -/
def be32 (n : Nat) : Bytes :=
  [n / 2 ^ 24 % 256, n / 2 ^ 16 % 256, n / 2 ^ 8 % 256, n % 256]

/-- A string as its length in characters followed by four bytes per character. -/
def putString (s : String) : Bytes :=
  be32 s.length ++ s.data.flatMap (fun c => be32 c.toNat)

/-- Read `n` characters of four bytes each. -/
def getChars : Nat → Bytes → Option (List Char × Bytes)
  | 0, bs => some ([], bs)
  | n + 1, b0 :: b1 :: b2 :: b3 :: bs =>
    match getChars n bs with
    | some (cs, rest) =>
      some (Char.ofNat (b0 * 2 ^ 24 + b1 * 2 ^ 16 + b2 * 2 ^ 8 + b3) :: cs, rest)
    | none => none
  | _ + 1, _ => none

/-- Read a string written by `putString`. -/
def getString : Bytes → Option (String × Bytes)
  | b0 :: b1 :: b2 :: b3 :: bs =>
    match getChars (b0 * 2 ^ 24 + b1 * 2 ^ 16 + b2 * 2 ^ 8 + b3) bs with
    | some (cs, rest) => some (String.mk cs, rest)
    | none => none
  | _ => none

/-- A concrete encoding to instantiate `Codec` with: the id as 8 big-endian
bytes, then the three strings, each as its length and its characters in
fixed-width big-endian form. Marshalling fails on a nil pointer and on a field
too large for its width, unmarshalling on truncated input. -/
def fixedWidthCodec : Codec where
  marshal
    | none => .error "proto: Marshal called with nil"
    | some blog =>
      if blog.Id < 2 ^ 64 ∧ blog.AuthorId.length < 2 ^ 32 ∧ blog.Title.length < 2 ^ 32 ∧
          blog.Content.length < 2 ^ 32 then
        .ok (uitob blog.Id ++ putString blog.AuthorId ++ putString blog.Title ++
          putString blog.Content)
      else .error "proto: field too large"
  unmarshal bs :=
    match btoui bs with
    | none => .error "unexpected EOF"
    | some id =>
      match getString (bs.drop 8) with
      | none => .error "unexpected EOF"
      | some (author, r1) =>
        match getString r1 with
        | none => .error "unexpected EOF"
        | some (title, r2) =>
          match getString r2 with
          | none => .error "unexpected EOF"
          | some (content, _) =>
            .ok { Id := id, AuthorId := author, Title := title, Content := content }

/-- `bytes` is the encoding `codec` stores for `blog`: marshalling `blog` gives
`bytes`, bolt accepts a value of that size, and unmarshalling `bytes` gives
`blog` back. -/
def Codec.Encodes (codec : Codec) (blog : Blog) (bytes : Bytes) : Prop :=
  codec.marshal (some blog) = .ok bytes ∧ bytes.length ≤ MaxValueSize ∧
    codec.unmarshal bytes = .ok blog

/-- The blog a pointer stands for when it is marshalled: a nil pointer is the
empty message. -/
def blogOfPointer : Option Blog → Blog
  | some blog => blog
  | none => { Id := 0, AuthorId := "", Title := "", Content := "" }

/-- Unmarshalling undoes marshalling: whatever `marshal` produces, `unmarshal`
reads back as the blog that was marshalled. -/
def Codec.RoundTrips (codec : Codec) : Prop :=
  ∀ (p : Option Blog) (bytes : Bytes), codec.marshal p = .ok bytes →
    codec.unmarshal bytes = .ok (blogOfPointer p)

/-- The `uint64` fields of the request of a call are below 2^64. -/
def Call.WellTyped : Call → Prop
  | .create req => getId req.Blog < 2 ^ 64
  | .update req => getId req.Blog < 2 ^ 64
  | .delete req => req.BlogId < 2 ^ 64

/-- A bucket in which key 1 holds a single byte, which is not the encoding of
a blog. -/
def strayValueBucket : Bucket :=
  ⟨[(uitob 1, [255])], 1, List.pairwise_singleton _ _⟩

/-- The blog of the client's third `CreateBlog` request. -/
def axlBlog : Blog :=
  { Id := 0, AuthorId := "Axl", Title := "Axl's blog",
    Content := "Content of Axl's awesome blog" }

/-- Every stored value unmarshals to a record whose id is the `uint64` its key
encodes. -/
def StoredUnderOwnId (codec : Codec) (entries : List (Bytes × Bytes)) : Prop :=
  ∀ e ∈ entries, ∃ blog, codec.unmarshal e.2 = .ok blog ∧ e.1 = uitob blog.Id ∧
    blog.Id < 2 ^ 64

/-- The number a byte string denotes when read most significant byte first. -/
def bigEndianValue (bs : Bytes) : Nat :=
  bs.foldl (fun acc b => acc * 256 + b) 0

/-- The bucket after the client's first two `CreateBlog` requests, here both
with the blog by Axl: two records, with ids 1 and 2. -/
def twoBlogsBucket : Bucket :=
  runCalls fixedWidthCodec Bucket.empty
    [.create { Blog := some axlBlog }, .create { Blog := some axlBlog }]

/-- A bucket in which key 1 holds the encoding of a blog and key 2 a single
byte, which is not the encoding of a blog. -/
def strayAfterBlogBucket : Bucket :=
  ⟨[(uitob 1, uitob 1 ++ putString "Axl" ++ putString "Axl's blog" ++ putString "Content"),
    (uitob 2, [255])], 2,
    List.pairwise_cons.2 ⟨fun _ h => by rw [List.mem_singleton.1 h]; rfl,
      List.pairwise_singleton _ _⟩⟩

/-- The ids of the blogs in the messages `ListBlog` sent, in the order sent. -/
def listedIds (sent : List ListBlogResponse) : List Nat :=
  sent.map (fun m => getId m.Blog)

end BlogServer

/-! ## Theorems -/

set_option maxRecDepth 8192

namespace Calculator

open Grpc

/-- C3: `SquareRoot` returns an error with status code `InvalidArgument`, and
no response, exactly when the requested number is negative, and it returns a
response (the square root of the number as a `float64`), and no error, exactly
when the number is at least 0; the client's two calls, 10 and -2, show both. -/
theorem SquareRoot_invalidArgument_iff (number : Int) :
    ((∃ msg, SquareRoot number = .err (.status Code.InvalidArgument msg)) ↔ number < 0) ∧
    (((SquareRoot number).errCode = some Code.InvalidArgument ∧
      (SquareRoot number).response = none) ↔ number < 0) ∧
    (SquareRoot number = .ok { NumberRoot := Float.sqrt (Float.ofInt number) } ↔
      0 ≤ number) ∧
    ((SquareRoot number).errCode = none ↔ 0 ≤ number) ∧
    (SquareRoot 10).errCode = none ∧
    (SquareRoot (-2)).errCode = some Code.InvalidArgument := by
  refine ⟨?_, ?_, ?_, ?_, ?_, ?_⟩
  · by_cases h : number < 0
    · simp [SquareRoot, h]
    · simp [SquareRoot, h]
  · by_cases h : number < 0
    · simp [SquareRoot, h, Outcome.errCode, Outcome.response, GoError.code]
    · simp [SquareRoot, h, Outcome.errCode, Outcome.response]
  · by_cases h : number < 0
    · simp [SquareRoot, h]
    · simp [SquareRoot, h]; omega
  · by_cases h : number < 0
    · simp [SquareRoot, h, Outcome.errCode]
    · simp [SquareRoot, h, Outcome.errCode]; omega
  · simp [SquareRoot, Outcome.errCode]
  · simp [SquareRoot, Outcome.errCode, GoError.code]

theorem wrapInt64_of_range (x : Int) (h1 : -2 ^ 63 ≤ x) (h2 : x < 2 ^ 63) :
    wrapInt64 x = x := by
  unfold wrapInt64
  omega

theorem isPrimeNumber_toNat (p : Int) (h : IsPrimeNumber p) : Nat.Prime p.toNat := by
  obtain ⟨h2, hdiv⟩ := h
  rw [Nat.prime_def]
  refine ⟨by omega, ?_⟩
  intro m hm
  have hp : ((p.toNat : Nat) : Int) = p := Int.toNat_of_nonneg (by omega)
  have hm0 : 0 < m := Nat.pos_of_dvd_of_pos hm (by omega)
  have hd : (m : Int) ∣ p := by
    rw [← hp]
    exact Int.natCast_dvd_natCast.2 hm
  rcases hdiv (m : Int) (by exact_mod_cast hm0) hd with h | h
  · left; exact_mod_cast h
  · right; omega

/-- The loop from a state in which `number` is at least 1, `divisor` is at
least 2 and no value from 2 up to `divisor - 1` divides `number`: with more
than `2 * number - divisor` units of fuel it ends normally, having sent prime
numbers whose product is `number`. -/
theorem decompositeLoop_spec (fuel : Nat) : ∀ (number divisor : Int) (sent : List Int),
    1 ≤ number → number < 2 ^ 63 → 2 ≤ divisor →
    (∀ e : Int, 2 ≤ e → e < divisor → ¬ e ∣ number) →
    0 < fuel → 2 * number - divisor < (fuel : Int) →
    ∃ factors, decompositeLoop fuel number divisor sent = some (.ok (), sent ++ factors) ∧
      factors.prod = number ∧ ∀ p ∈ factors, IsPrimeNumber p := by
  induction fuel with
  | zero =>
    intro number divisor sent h1 hn hd hno hpos hfuel
    omega
  | succ fuel ih =>
    intro number divisor sent h1 hn hd hno hpos hfuel
    by_cases hgt : number > 1
    · have hle : divisor ≤ number := by
        by_contra hc
        exact hno number (by omega) (by omega) (dvd_refl _)
      have hd0 : divisor ≠ 0 := by omega
      have hmod : number.tmod divisor = number % divisor :=
        Int.tmod_eq_emod (by omega) (by omega)
      have hdiv : number.tdiv divisor = number / divisor :=
        Int.tdiv_eq_ediv (by omega) (by omega)
      by_cases hz : number % divisor = 0
      · have hdvd : divisor ∣ number := Int.dvd_of_emod_eq_zero hz
        obtain ⟨q, hq⟩ := hdvd
        have hqdiv : number / divisor = q := by
          rw [hq]; exact Int.mul_ediv_cancel_left q hd0
        have hq1 : 1 ≤ q := by
          by_contra hc
          have : divisor * q ≤ 0 := Int.mul_nonpos_of_nonneg_of_nonpos (by omega) (by omega)
          omega
        have hqlt : q < number := by
          have : 2 * q ≤ divisor * q := Int.mul_le_mul_of_nonneg_right hd (by omega)
          omega
        have hno' : ∀ e : Int, 2 ≤ e → e < divisor → ¬ e ∣ q := by
          intro e he1 he2 hdq
          exact hno e he1 he2 (hq ▸ Dvd.dvd.mul_left hdq divisor)
        obtain ⟨factors, hrun, hprod, hprime⟩ :=
          ih q divisor (sent ++ [divisor]) hq1 (by omega) hd hno' (by push_cast at hfuel; omega)
            (by push_cast at hfuel; omega)
        refine ⟨divisor :: factors, ?_, ?_, ?_⟩
        · rw [decompositeLoop]
          simp only [hgt, if_true, hd0, if_false, hmod, hz, hdiv, hqdiv]
          rw [wrapInt64_of_range q (by omega) (by omega), hrun]
          simp
        · simp [hprod, hq]
        · intro p hp
          rcases List.mem_cons.1 hp with rfl | hp
          · refine ⟨hd, ?_⟩
            intro d hdpos hdd
            have hdle : d ≤ p := Int.le_of_dvd (by omega) hdd
            by_contra hc
            push_neg at hc
            exact hno d (by omega) (by omega) (hq ▸ Dvd.dvd.mul_right hdd q)
          · exact hprime p hp
      · have hlt : divisor < number := by
          rcases lt_or_eq_of_le hle with h | h
          · exact h
          · exact absurd (by rw [h]; exact Int.emod_self) hz
        have hno' : ∀ e : Int, 2 ≤ e → e < divisor + 1 → ¬ e ∣ number := by
          intro e he1 he2 hdn
          rcases lt_or_eq_of_le (Int.lt_add_one_iff.1 he2) with h | h
          · exact hno e he1 h hdn
          · exact hz (Int.emod_eq_zero_of_dvd (h ▸ hdn))
        obtain ⟨factors, hrun, hprod, hprime⟩ :=
          ih number (divisor + 1) sent h1 hn (by omega) hno' (by push_cast at hfuel; omega)
            (by push_cast at hfuel; omega)
        refine ⟨factors, ?_, hprod, hprime⟩
        rw [decompositeLoop]
        simp only [hgt, if_true, hd0, if_false, hmod, hz]
        rw [wrapInt64_of_range (divisor + 1) (by omega) (by omega), hrun]
    · refine ⟨[], ?_, ?_, ?_⟩
      · rw [decompositeLoop]
        simp [hgt]
      · simp; omega
      · simp

/-- More fuel does not change the result of a loop that ended. -/
theorem decompositeLoop_mono (fuel : Nat) : ∀ (k : Nat) (number divisor : Int)
    (sent : List Int) (r : Outcome Unit × List Int),
    decompositeLoop fuel number divisor sent = some r →
    decompositeLoop (fuel + k) number divisor sent = some r := by
  induction fuel with
  | zero => intro k number divisor sent r h; simp [decompositeLoop] at h
  | succ fuel ih =>
    intro k number divisor sent r h
    rw [show fuel + 1 + k = (fuel + k) + 1 by omega]
    rw [decompositeLoop] at h ⊢
    split_ifs at h ⊢ with h1 h2 h3
    · exact h
    · exact ih k _ _ _ _ h
    · exact ih k _ _ _ _ h
    · exact h

/-- The result of a run that ended does not depend on the fuel it was given. -/
theorem decompositeLoop_unique (f1 f2 : Nat) (number divisor : Int) (sent : List Int)
    (r1 r2 : Outcome Unit × List Int)
    (h1 : decompositeLoop f1 number divisor sent = some r1)
    (h2 : decompositeLoop f2 number divisor sent = some r2) : r2 = r1 := by
  have e1 := decompositeLoop_mono f1 f2 number divisor sent r1 h1
  have e2 := decompositeLoop_mono f2 f1 number divisor sent r2 h2
  rw [Nat.add_comm] at e2
  rw [e1] at e2
  exact (Option.some.inj e2).symm

/-- C7: for every requested number n > 1 (an `int64`), `DecompositeNumber` ends
normally once it has enough fuel, the run does not depend on the fuel, and the
product of the factors it sent, in the order sent, is n. -/
theorem DecompositeNumber_product (number : Int) (h1 : 1 < number) (h2 : number < 2 ^ 63) :
    ∃ fuel factors, DecompositeNumber number fuel = some (.ok (), factors) ∧
      factors.prod = number ∧
      ∀ fuel' r, DecompositeNumber number fuel' = some r → r = (.ok (), factors) := by
  obtain ⟨factors, hrun, hprod, _⟩ :=
    decompositeLoop_spec (2 * number).toNat number 2 [] (by omega) h2 (by omega)
      (by intro e he1 he2; omega) (by omega) (by omega)
  refine ⟨(2 * number).toNat, factors, ?_, hprod, ?_⟩
  · simpa [DecompositeNumber] using hrun
  · intro fuel' r hr
    exact decompositeLoop_unique _ _ _ _ _ _ _ (by simpa using hrun) hr

/-- C7 at the number 12: the factors sent are 2, 2, 3. -/
theorem DecompositeNumber_product_witness :
    DecompositeNumber 12 6 = some (.ok (), [2, 2, 3]) ∧
    ∃ fuel factors, DecompositeNumber 12 fuel = some (.ok (), factors) ∧
      factors.prod = 12 ∧
      ∀ fuel' r, DecompositeNumber 12 fuel' = some r → r = (.ok (), factors) :=
  ⟨rfl, DecompositeNumber_product 12 (by decide) (by decide)⟩

/-- C8: for every requested number n > 1 (an `int64`), `DecompositeNumber` ends
normally once it has enough fuel, and every value it sent is a prime number:
at least 2, with no positive divisor other than 1 and itself. -/
theorem DecompositeNumber_prime (number : Int) (h1 : 1 < number) (h2 : number < 2 ^ 63) :
    ∃ fuel factors, DecompositeNumber number fuel = some (.ok (), factors) ∧
      (∀ p ∈ factors, IsPrimeNumber p ∧ Nat.Prime p.toNat) ∧
      ∀ fuel' r, DecompositeNumber number fuel' = some r → r = (.ok (), factors) := by
  obtain ⟨factors, hrun, _, hprime⟩ :=
    decompositeLoop_spec (2 * number).toNat number 2 [] (by omega) h2 (by omega)
      (by intro e he1 he2; omega) (by omega) (by omega)
  refine ⟨(2 * number).toNat, factors, ?_, ?_, ?_⟩
  · simpa [DecompositeNumber] using hrun
  · intro p hp
    exact ⟨hprime p hp, isPrimeNumber_toNat p (hprime p hp)⟩
  · intro fuel' r hr
    exact decompositeLoop_unique _ _ _ _ _ _ _ (by simpa using hrun) hr

/-- C8 at the number 60: the factors sent are 2, 2, 3, 5. -/
theorem DecompositeNumber_prime_witness :
    DecompositeNumber 60 10 = some (.ok (), [2, 2, 3, 5]) ∧
    ∃ fuel factors, DecompositeNumber 60 fuel = some (.ok (), factors) ∧
      (∀ p ∈ factors, IsPrimeNumber p ∧ Nat.Prime p.toNat) ∧
      ∀ fuel' r, DecompositeNumber 60 fuel' = some r → r = (.ok (), factors) :=
  ⟨rfl, DecompositeNumber_prime 60 (by decide) (by decide)⟩

/-- The loop of `ComputeAverage` from an `int64` sum and a count in range, on a
stream that ends with `io.EOF`. -/
theorem computeAverageLoop_eof (numbers : List Int) : ∀ (sum count : Int),
    -2 ^ 63 ≤ sum → sum < 2 ^ 63 → -2 ^ 63 ≤ count → count < 2 ^ 63 →
    computeAverageLoop sum count numbers .eof =
      (.ok (), [{ Average := Float.ofInt (wrapInt64 (sum + numbers.sum)) /
        Float.ofInt (wrapInt64 (count + numbers.length)) }]) := by
  induction numbers with
  | nil =>
    intro sum count h1 h2 h3 h4
    rw [computeAverageLoop, List.sum_nil, List.length_nil, Int.add_zero]
    simp only [Nat.cast_zero, Int.add_zero]
    rw [wrapInt64_of_range sum h1 h2, wrapInt64_of_range count h3 h4]
  | cons x rest ih =>
    intro sum count h1 h2 h3 h4
    rw [computeAverageLoop]
    rw [ih (wrapInt64 (sum + x)) (wrapInt64 (count + 1)) (by unfold wrapInt64; omega)
      (by unfold wrapInt64; omega) (by unfold wrapInt64; omega) (by unfold wrapInt64; omega)]
    have e1 : wrapInt64 (wrapInt64 (sum + x) + rest.sum) =
        wrapInt64 (sum + (x :: rest).sum) := by
      simp only [List.sum_cons]
      unfold wrapInt64
      omega
    have e2 : wrapInt64 (wrapInt64 (count + 1) + (rest.length : Int)) =
        wrapInt64 (count + ((x :: rest).length : Int)) := by
      simp only [List.length_cons]
      push_cast
      unfold wrapInt64
      omega
    rw [e1, e2]

/-- C9: for every finite stream of numbers (in particular every non-empty one)
that ends with `io.EOF`, holds fewer than 2^63 numbers and whose sum fits in a
signed 64-bit integer, `ComputeAverage` sends exactly one response, at the end
of the stream, and its average is the `float64` quotient of the sum of the
numbers by how many they are. -/
theorem ComputeAverage_eq (numbers : List Int) (hlo : -2 ^ 63 ≤ numbers.sum)
    (hhi : numbers.sum < 2 ^ 63) (hlen : (numbers.length : Int) < 2 ^ 63) :
    ComputeAverage numbers .eof =
      (.ok (), [{ Average := Float.ofInt numbers.sum / Float.ofInt numbers.length }]) := by
  unfold ComputeAverage
  rw [computeAverageLoop_eof numbers 0 0 (by omega) (by omega) (by omega) (by omega)]
  simp only [zero_add]
  rw [wrapInt64_of_range _ hlo hhi, wrapInt64_of_range _ (by omega) hlen]

/-- C9 on the client's stream 3, 5, 9, 54, 23: one response, 94 / 5. -/
theorem ComputeAverage_eq_witness :
    ComputeAverage [3, 5, 9, 54, 23] .eof =
      (.ok (), [{ Average := Float.ofInt 94 / Float.ofInt 5 }]) :=
  ComputeAverage_eq [3, 5, 9, 54, 23] (by decide) (by decide) (by decide)

/-- With a transport that accepts every `Send`, on a stream that ends with
`io.EOF`: when `maxNum` is the greatest of the (non-empty) list `before`, the
loop sends the numbers that are strictly greater than every number of `before`
and every number received before them. -/
theorem findMaximumLoop_eof (numbers : List Int) : ∀ (before : List Int) (maxNum : Int)
    (sent : List FindMaximumResponse), maxNum ∈ before → (∀ y ∈ before, y ≤ maxNum) →
    findMaximumLoop maxNum sent none numbers .eof =
      (.ok (), sent ++ (strictRecords before numbers).map (fun x => { Max := x })) := by
  induction numbers with
  | nil => intro before maxNum sent _ _; simp [findMaximumLoop, strictRecords]
  | cons x rest ih =>
    intro before maxNum sent hmem hmax
    have hall : (before.all (fun y => decide (y < x)) = true) ↔ x > maxNum := by
      simp only [List.all_eq_true, decide_eq_true_eq]
      constructor
      · intro h; exact h maxNum hmem
      · intro h y hy; have := hmax y hy; omega
    rw [findMaximumLoop, strictRecords]
    by_cases hx : x > maxNum
    · rw [if_pos hx, if_pos (hall.2 hx)]
      rw [ih (before ++ [x]) x (sent ++ [FindMaximumResponse.mk x]) (by simp)
        (by
          intro y hy
          rcases List.mem_append.1 hy with hy | hy
          · have := hmax y hy; omega
          · simp at hy; omega)]
      simp
    · rw [if_neg hx, if_neg (fun h => hx (hall.1 h))]
      rw [ih (before ++ [x]) maxNum sent (by simp [hmem])
        (by
          intro y hy
          rcases List.mem_append.1 hy with hy | hy
          · exact hmax y hy
          · simp at hy; omega)]

/-- What `FindMaximum` sends on a stream that ends with `io.EOF`, over a
transport that accepts every `Send`: the numbers strictly greater than every
number received before them, counted as though a 0 had been received first. -/
theorem FindMaximum_eq (numbers : List Int) :
    FindMaximum numbers .eof none =
      (.ok (), (strictRecords [0] numbers).map (fun x => { Max := x })) := by
  unfold FindMaximum
  rw [findMaximumLoop_eof numbers [0] 0 [] (by simp) (by simp)]
  simp

/-- A 0 among the numbers received earlier does not matter to positive numbers. -/
theorem strictRecords_zero_of_pos (numbers : List Int) : ∀ (before : List Int),
    (∀ x ∈ numbers, 0 < x) →
    strictRecords (0 :: before) numbers = strictRecords before numbers := by
  induction numbers with
  | nil => intro before _; simp [strictRecords]
  | cons x rest ih =>
    intro before hpos
    have hx : 0 < x := hpos x (by simp)
    have hrest : ∀ y ∈ rest, 0 < y := fun y hy => hpos y (by simp [hy])
    simp only [strictRecords, List.all_cons, hx, decide_True, Bool.true_and, List.cons_append]
    rw [ih (before ++ [x]) hrest]

/-- On a stream of positive numbers `FindMaximum` sends exactly the numbers
that are strictly greater than every number received before them. -/
theorem FindMaximum_of_pos (numbers : List Int) (hpos : ∀ x ∈ numbers, 0 < x) :
    FindMaximum numbers .eof none =
      (.ok (), (strictRecords [] numbers).map (fun x => { Max := x })) := by
  rw [FindMaximum_eq, strictRecords_zero_of_pos numbers [] hpos]

/-- C6 on the stream of the exercise, 1, 5, 3, 6, 2, 20, and on the stream -1:
on the first the responses are 1, 5, 6, 20; on the second, whose only number is
greater than every number before it, `FindMaximum` sends nothing. -/
theorem FindMaximum_negative_first :
    FindMaximum [1, 5, 3, 6, 2, 20] .eof none =
      (.ok (), [{ Max := 1 }, { Max := 5 }, { Max := 6 }, { Max := 20 }]) ∧
    strictRecords [] [-1] = [-1] ∧
    FindMaximum [-1] .eof none = (.ok (), []) :=
  ⟨rfl, rfl, rfl⟩

/-- The factors the loop sends are the divisors of the states in which the
divisor divides the number. -/
theorem decompositeLoop_sent (fuel : Nat) : ∀ (number divisor : Int) (sent : List Int)
    (r : Outcome Unit × List Int), decompositeLoop fuel number divisor sent = some r →
    r.2 = sent ++ (decompositeStates fuel number divisor).filterMap
      (fun s => if s.1.tmod s.2 = 0 then some s.2 else none) := by
  induction fuel with
  | zero => intro number divisor sent r h; simp [decompositeLoop] at h
  | succ fuel ih =>
    intro number divisor sent r h
    rw [decompositeLoop] at h
    rw [decompositeStates]
    split_ifs at h ⊢ with h1 h2 h3
    · cases h
      have hne : number.tmod divisor ≠ 0 := by
        rw [h2, Int.tmod_zero]; omega
      simp [hne]
    · rw [ih _ _ _ r h]
      simp [h3]
    · rw [ih _ _ _ r h]
      simp [h3]
    · cases h
      simp

/-- From a state in which `number` is at least 1, `divisor` is at least 2 and
no value from 2 up to `divisor - 1` divides `number`: in every state in which
the body runs, the divisor is at least 2 and at most the remaining number,
which is at most `number`, and a divisor that is incremented stays below it. -/
theorem decompositeStates_bound (fuel : Nat) : ∀ (number divisor : Int),
    1 ≤ number → number < 2 ^ 63 → 2 ≤ divisor →
    (∀ e : Int, 2 ≤ e → e < divisor → ¬ e ∣ number) →
    ∀ s ∈ decompositeStates fuel number divisor,
      2 ≤ s.2 ∧ s.2 ≤ s.1 ∧ s.1 ≤ number ∧
      (s.1.tmod s.2 ≠ 0 → wrapInt64 (s.2 + 1) = s.2 + 1 ∧ s.2 + 1 ≤ s.1) := by
  induction fuel with
  | zero => intro number divisor _ _ _ _ s hs; simp [decompositeStates] at hs
  | succ fuel ih =>
    intro number divisor h1 hn hd hno s hs
    rw [decompositeStates] at hs
    by_cases hgt : number > 1
    · have hle : divisor ≤ number := by
        by_contra hc
        exact hno number (by omega) (by omega) (dvd_refl _)
      have hd0 : divisor ≠ 0 := by omega
      have hmod : number.tmod divisor = number % divisor :=
        Int.tmod_eq_emod (by omega) (by omega)
      have hdiv : number.tdiv divisor = number / divisor :=
        Int.tdiv_eq_ediv (by omega) (by omega)
      rw [if_pos hgt, if_neg hd0] at hs
      rcases List.mem_cons.1 hs with hs | hs
      · subst hs
        refine ⟨hd, hle, le_refl _, ?_⟩
        intro hnz
        have hlt : divisor < number := by
          rcases lt_or_eq_of_le hle with h | h
          · exact h
          · exact absurd (by rw [h]; exact Int.tmod_self) hnz
        exact ⟨wrapInt64_of_range _ (by omega) (by omega), by omega⟩
      · by_cases hz : number % divisor = 0
        · rw [hmod, if_pos hz, hdiv] at hs
          obtain ⟨q, hq⟩ := Int.dvd_of_emod_eq_zero hz
          have hqdiv : number / divisor = q := by
            rw [hq]; exact Int.mul_ediv_cancel_left q hd0
          have hq1 : 1 ≤ q := by
            by_contra hc
            have : divisor * q ≤ 0 :=
              Int.mul_nonpos_of_nonneg_of_nonpos (by omega) (by omega)
            omega
          have hqlt : q < number := by
            have : 2 * q ≤ divisor * q := Int.mul_le_mul_of_nonneg_right hd (by omega)
            omega
          have hno' : ∀ e : Int, 2 ≤ e → e < divisor → ¬ e ∣ q := by
            intro e he1 he2 hdq
            exact hno e he1 he2 (hq ▸ Dvd.dvd.mul_left hdq divisor)
          rw [hqdiv, wrapInt64_of_range q (by omega) (by omega)] at hs
          obtain ⟨a, b, c, d⟩ := ih q divisor hq1 (by omega) hd hno' s hs
          exact ⟨a, b, by omega, d⟩
        · rw [hmod, if_neg hz] at hs
          have hlt : divisor < number := by
            rcases lt_or_eq_of_le hle with h | h
            · exact h
            · exact absurd (by rw [h]; exact Int.emod_self) hz
          have hno' : ∀ e : Int, 2 ≤ e → e < divisor + 1 → ¬ e ∣ number := by
            intro e he1 he2 hdn
            rcases lt_or_eq_of_le (Int.lt_add_one_iff.1 he2) with h | h
            · exact hno e he1 h hdn
            · exact hz (Int.emod_eq_zero_of_dvd (h ▸ hdn))
          rw [wrapInt64_of_range (divisor + 1) (by omega) (by omega)] at hs
          exact ih number (divisor + 1) h1 hn (by omega) hno' s hs
    · rw [if_neg hgt] at hs
      simp at hs

/-- C17: for every `int64` requested number the loop of `DecompositeNumber`
ends, with no error, once it has enough fuel, and the run does not depend on
the fuel; in every state in which the body of the loop runs the divisor is at
least 2 and at most the remaining number, and incrementing it does not leave
the `int64` range; for a number that is at most 1 the handler sends no factor
and returns no error. -/
theorem DecompositeNumber_terminates (number : Int) (hlo : -2 ^ 63 ≤ number)
    (hhi : number < 2 ^ 63) :
    (∃ fuel factors, DecompositeNumber number fuel = some (.ok (), factors) ∧
      ∀ fuel' r, DecompositeNumber number fuel' = some r → r = (.ok (), factors)) ∧
    (∀ fuel, ∀ s ∈ decompositeStates fuel number 2,
      2 ≤ s.2 ∧ s.2 ≤ s.1 ∧ s.1 ≤ number ∧
      (s.1.tmod s.2 ≠ 0 → wrapInt64 (s.2 + 1) = s.2 + 1 ∧ s.2 + 1 ≤ s.1)) ∧
    (number ≤ 1 → ∀ fuel, DecompositeNumber number (fuel + 1) = some (.ok (), [])) := by
  have hsmall : number ≤ 1 → ∀ fuel, DecompositeNumber number (fuel + 1) = some (.ok (), []) := by
    intro h fuel
    rw [DecompositeNumber, decompositeLoop, if_neg (by omega)]
  refine ⟨?_, ?_, hsmall⟩
  · by_cases h : number ≤ 1
    · refine ⟨1, [], hsmall h 0, ?_⟩
      intro fuel' r hr
      exact decompositeLoop_unique _ _ _ _ _ _ _ (hsmall h 0) hr
    · obtain ⟨factors, hrun, _, _⟩ :=
        decompositeLoop_spec (2 * number).toNat number 2 [] (by omega) hhi (by omega)
          (by intro e he1 he2; omega) (by omega) (by omega)
      refine ⟨(2 * number).toNat, factors, by simpa [DecompositeNumber] using hrun, ?_⟩
      intro fuel' r hr
      exact decompositeLoop_unique _ _ _ _ _ _ _ (by simpa using hrun) hr
  · intro fuel s hs
    by_cases h : number ≤ 1
    · cases fuel with
      | zero => simp [decompositeStates] at hs
      | succ fuel =>
        rw [decompositeStates, if_neg (by omega)] at hs
        simp at hs
    · exact decompositeStates_bound fuel number 2 (by omega) hhi (by omega)
        (by intro e he1 he2; omega) s hs

/-- C17 at the numbers 12 and -5: on 12 the body runs in the states (12, 2),
(6, 2), (3, 2), (3, 3); on -5 nothing is sent. -/
theorem DecompositeNumber_terminates_witness :
    decompositeStates 6 12 2 = [(12, 2), (6, 2), (3, 2), (3, 3)] ∧
    DecompositeNumber (-5) 1 = some (.ok (), []) ∧
    ((∃ fuel factors, DecompositeNumber 12 fuel = some (.ok (), factors) ∧
      ∀ fuel' r, DecompositeNumber 12 fuel' = some r → r = (.ok (), factors)) ∧
    (∀ fuel, ∀ s ∈ decompositeStates fuel 12 2,
      2 ≤ s.2 ∧ s.2 ≤ s.1 ∧ s.1 ≤ 12 ∧
      (s.1.tmod s.2 ≠ 0 → wrapInt64 (s.2 + 1) = s.2 + 1 ∧ s.2 + 1 ≤ s.1)) ∧
    ((12 : Int) ≤ 1 → ∀ fuel, DecompositeNumber 12 (fuel + 1) = some (.ok (), []))) :=
  ⟨rfl, rfl, DecompositeNumber_terminates 12 (by decide) (by decide)⟩

end Calculator

namespace BlogServer

open Grpc

theorem btoui_uitob (v : Nat) : btoui (uitob v) = some (v % 2 ^ 64) := by
  simp only [uitob, btoui, Option.some.injEq]
  omega

theorem uitob_mod (v : Nat) : uitob (v % 2 ^ 64) = uitob v := by
  simp only [uitob, List.cons.injEq, and_true]
  refine ⟨?_, ?_, ?_, ?_, ?_, ?_, ?_, ?_⟩ <;> omega

theorem uitob_length (v : Nat) : (uitob v).length = 8 := rfl

theorem lookupKey_insertEntry_self (key value : Bytes) (entries : List (Bytes × Bytes)) :
    lookupKey key (insertEntry key value entries) = some value := by
  induction entries with
  | nil => simp [insertEntry, lookupKey]
  | cons hd tl ih =>
    obtain ⟨k, v⟩ := hd
    simp only [insertEntry]
    split
    · simp [lookupKey]
    · simp [lookupKey]
    next hgt =>
      have hne : k ≠ key := by
        intro h
        rw [h, (bytesCompare_eq_iff key key).2 rfl] at hgt
        exact absurd hgt (by decide)
      simp [lookupKey, hne, ih]

theorem lookupKey_insertEntry_of_ne (key value other : Bytes)
    (entries : List (Bytes × Bytes)) (hne : other ≠ key) :
    lookupKey other (insertEntry key value entries) = lookupKey other entries := by
  induction entries with
  | nil => simp [insertEntry, lookupKey, Ne.symm hne]
  | cons hd tl ih =>
    obtain ⟨k, v⟩ := hd
    simp only [insertEntry]
    split
    · simp [lookupKey, Ne.symm hne]
    next heq =>
      have hk : key = k := (bytesCompare_eq_iff _ _).1 heq
      subst hk
      simp [lookupKey, Ne.symm hne]
    · simp only [lookupKey, ih]

theorem lookupKey_eraseKey_self (key : Bytes) (entries : List (Bytes × Bytes)) :
    lookupKey key (eraseKey key entries) = none := by
  induction entries with
  | nil => simp [eraseKey, lookupKey]
  | cons hd tl ih =>
    obtain ⟨k, v⟩ := hd
    unfold eraseKey at ih ⊢
    rw [List.filter_cons]
    by_cases h : k = key
    · rw [if_neg (by simp [h])]
      exact ih
    · rw [if_pos (by simp [h]), lookupKey, if_neg h]
      exact ih

theorem lookupKey_eraseKey_of_ne (key other : Bytes) (entries : List (Bytes × Bytes))
    (hne : other ≠ key) :
    lookupKey other (eraseKey key entries) = lookupKey other entries := by
  induction entries with
  | nil => simp [eraseKey, lookupKey]
  | cons hd tl ih =>
    obtain ⟨k, v⟩ := hd
    unfold eraseKey at ih ⊢
    rw [List.filter_cons]
    by_cases h : k = key
    · have hk : k ≠ other := by rw [h]; exact Ne.symm hne
      rw [if_neg (by simp [h]), lookupKey, if_neg hk]
      exact ih
    · rw [if_pos (by simp [h]), lookupKey, lookupKey, ih]

theorem lookupKey_eq_none_iff (key : Bytes) (entries : List (Bytes × Bytes)) :
    lookupKey key entries = none ↔ ∀ e ∈ entries, e.1 ≠ key := by
  induction entries with
  | nil => simp [lookupKey]
  | cons hd tl ih =>
    obtain ⟨k, v⟩ := hd
    by_cases h : k = key
    · simp [lookupKey, h]
    · simp [lookupKey, h, ih]

/-- `Put` under an 8-byte key succeeds when the value is within `MaxValueSize`. -/
theorem Bucket.Put_uitob (b : Bucket) (v : Nat) (value : Bytes)
    (hsize : value.length ≤ MaxValueSize) :
    ∃ b', b.Put (uitob v) value = .ok b' ∧
      b'.entries = insertEntry (uitob v) value b.entries ∧ b'.sequence = b.sequence := by
  refine ⟨⟨insertEntry (uitob v) value b.entries, b.sequence,
    insertEntry_ascending _ _ _ b.ascending⟩, ?_, rfl, rfl⟩
  unfold Bucket.Put
  rw [if_neg (by rw [uitob_length]; decide), if_neg (by rw [uitob_length]; decide),
    if_neg (by omega)]

theorem printBlogs_eq_none (codec : Codec) (entries : List (Bytes × Bytes))
    (h : ∀ e ∈ entries, ∃ blog, codec.unmarshal e.2 = .ok blog) :
    printBlogs codec entries = none := by
  induction entries with
  | nil => rfl
  | cons hd tl ih =>
    obtain ⟨k, v⟩ := hd
    obtain ⟨blog, hb⟩ := h (k, v) (by simp)
    simp only [printBlogs]
    simp only [] at hb
    rw [hb]
    exact ih (fun e he => h e (by simp [he]))

theorem notFound_uitob {α : Type} (v : Nat) :
    (notFound (uitob v) : Outcome α) = .err (.status Code.NotFound
      ("Could not find blog with id " ++ toString (v % 2 ^ 64) ++ "\n")) := by
  simp [notFound, btoui_uitob]

/-- C1: for every bucket and every `CreateBlog` request with a non-nil blog
whose record (with the next sequence number as id) the codec encodes in bytes
it decodes back, `CreateBlog` returns that record with the new id, and a
`ReadBlog` of that id on the bucket left by `CreateBlog` returns a record with
the same id and the request's author id, title and content. -/
theorem CreateBlog_then_ReadBlog (codec : Codec) (db : Bucket) (blog : Blog) (bytes : Bytes)
    (henc : codec.Encodes { blog with Id := db.NextSequence.1 } bytes) :
    ∃ id db',
      CreateBlog codec db { Blog := some blog } =
        (.ok { Blog := some { blog with Id := id } }, db') ∧
      ReadBlog codec db' { BlogId := id } =
        .ok { Blog := some (Blog.mk id blog.AuthorId blog.Title blog.Content) } := by
  obtain ⟨hm, hsize, hu⟩ := henc
  obtain ⟨db', hput, hentries, _⟩ :=
    Bucket.Put_uitob db.NextSequence.2 db.NextSequence.1 bytes hsize
  refine ⟨db.NextSequence.1, db', ?_, ?_⟩
  · simp only [CreateBlog, hm, hput]
  · simp only [ReadBlog, Bucket.Get, hentries, lookupKey_insertEntry_self, hu]

/-- C1 on the empty bucket with the client's blog by Axl: the id assigned is 1. -/
theorem CreateBlog_then_ReadBlog_witness :
    (CreateBlog fixedWidthCodec Bucket.empty { Blog := some axlBlog }).1 =
      .ok { Blog := some { axlBlog with Id := 1 } } ∧
    ∃ id db',
      CreateBlog fixedWidthCodec Bucket.empty { Blog := some axlBlog } =
        (.ok { Blog := some { axlBlog with Id := id } }, db') ∧
      ReadBlog fixedWidthCodec db' { BlogId := id } =
        .ok { Blog := some (Blog.mk id axlBlog.AuthorId axlBlog.Title axlBlog.Content) } :=
  ⟨rfl, CreateBlog_then_ReadBlog fixedWidthCodec Bucket.empty axlBlog
    (uitob 1 ++ putString axlBlog.AuthorId ++ putString axlBlog.Title ++
      putString axlBlog.Content)
    ⟨rfl, by decide, rfl⟩⟩

/-- C2, amended: for every bucket whose stored values all unmarshal and every
identifier under which nothing is stored, `DeleteBlog` returns an error with
status code `NotFound`, and no response, and leaves the bucket as it was. -/
theorem DeleteBlog_notFound (codec : Codec) (db : Bucket) (req : DeleteBlogRequest)
    (hvalues : ∀ e ∈ db.entries, ∃ blog, codec.unmarshal e.2 = .ok blog)
    (habsent : db.Get (uitob req.BlogId) = none) :
    ∃ msg, DeleteBlog codec db req = (.err (.status Code.NotFound msg), db) := by
  refine ⟨"Could not find blog with id " ++ toString (req.BlogId % 2 ^ 64) ++ "\n", ?_⟩
  simp only [DeleteBlog, printBlogs_eq_none codec db.entries hvalues, habsent, notFound_uitob]

/-- C2, amended, on the bucket left by one `CreateBlog`, for the identifier 2. -/
theorem DeleteBlog_notFound_witness :
    ∃ msg, DeleteBlog fixedWidthCodec
        (CreateBlog fixedWidthCodec Bucket.empty { Blog := some axlBlog }).2 { BlogId := 2 } =
      (.err (.status Code.NotFound msg),
        (CreateBlog fixedWidthCodec Bucket.empty { Blog := some axlBlog }).2) :=
  DeleteBlog_notFound fixedWidthCodec
    (CreateBlog fixedWidthCodec Bucket.empty { Blog := some axlBlog }).2 { BlogId := 2 }
    (by
      intro e he
      have hentries : (CreateBlog fixedWidthCodec Bucket.empty { Blog := some axlBlog }).2.entries =
          [(uitob 1, uitob 1 ++ putString axlBlog.AuthorId ++ putString axlBlog.Title ++
            putString axlBlog.Content)] := rfl
      rw [hentries, List.mem_singleton] at he
      subst he
      exact ⟨{ axlBlog with Id := 1 }, rfl⟩)
    rfl

/-- C2 as stated fails: in a bucket where key 1 holds a value that does not
unmarshal, nothing is stored under the identifier 2, yet `DeleteBlog` of 2
ends the process in `log.Fatalf` instead of returning `NotFound`. -/
theorem DeleteBlog_stray_value_exits :
    strayValueBucket.Get (uitob 2) = none ∧
    fixedWidthCodec.unmarshal [255] = .error "unexpected EOF" ∧
    (DeleteBlog fixedWidthCodec strayValueBucket { BlogId := 2 }).1 =
      .exit "Something went wrong: unexpected EOF\n\n" ∧
    (DeleteBlog fixedWidthCodec strayValueBucket { BlogId := 2 }).1.errCode = none :=
  ⟨rfl, rfl, rfl, rfl⟩

/-- C10: for every bucket (in particular every one whose stored values all
unmarshal), `ReadBlog` returns an error with status code `NotFound` exactly
when nothing is stored under the requested identifier, `UpdateBlog` does so
exactly when nothing is stored under the id of the blog in the request, and
an `UpdateBlog` that returns `NotFound` leaves the bucket as it was
(`ReadBlog` runs in a read-only transaction). -/
theorem ReadBlog_UpdateBlog_notFound_iff (codec : Codec) (db : Bucket)
    (readReq : ReadBlogRequest) (updateReq : UpdateBlogRequest) :
    ((ReadBlog codec db readReq).errCode = some Code.NotFound ↔
      db.Get (uitob readReq.BlogId) = none) ∧
    ((UpdateBlog codec db updateReq).1.errCode = some Code.NotFound ↔
      db.Get (uitob (getId updateReq.Blog)) = none) ∧
    ((UpdateBlog codec db updateReq).1.errCode = some Code.NotFound →
      (UpdateBlog codec db updateReq).2 = db) := by
  refine ⟨?_, ?_, ?_⟩
  · cases hget : db.Get (uitob readReq.BlogId) with
    | none => simp [ReadBlog, hget, notFound_uitob, Outcome.errCode, GoError.code]
    | some blogBytes =>
      cases hu : codec.unmarshal blogBytes with
      | error e => simp [ReadBlog, hget, hu, Outcome.errCode, GoError.code]
      | ok blog => simp [ReadBlog, hget, hu, Outcome.errCode]
  · cases hget : db.Get (uitob (getId updateReq.Blog)) with
    | none => simp [UpdateBlog, hget, notFound_uitob, Outcome.errCode, GoError.code]
    | some blogBytes =>
      cases hm : codec.marshal updateReq.Blog with
      | error e => simp [UpdateBlog, hget, hm, Outcome.errCode, GoError.code]
      | ok bytes =>
        cases hp : db.Put (uitob (getId updateReq.Blog)) bytes with
        | error e => simp [UpdateBlog, hget, hm, hp, Outcome.errCode, GoError.code]
        | ok db' => simp [UpdateBlog, hget, hm, hp, Outcome.errCode]
  · cases hget : db.Get (uitob (getId updateReq.Blog)) with
    | none => simp [UpdateBlog, hget]
    | some blogBytes =>
      cases hm : codec.marshal updateReq.Blog with
      | error e => simp [UpdateBlog, hget, hm]
      | ok bytes =>
        cases hp : db.Put (uitob (getId updateReq.Blog)) bytes with
        | error e => simp [UpdateBlog, hget, hm, hp]
        | ok db' => simp [UpdateBlog, hget, hm, hp, Outcome.errCode]

/-- What one call does to the sequence counter: either it assigns no
identifier and leaves the counter alone, or it is a `CreateBlog` that assigns
the incremented counter. -/
theorem Call.sequence_step (codec : Codec) (db : Bucket) (c : Call) :
    (c.assigned codec db = none ∧ (c.next codec db).sequence = db.sequence) ∨
    (c.assigned codec db = some ((db.sequence + 1) % 2 ^ 64) ∧
      (c.next codec db).sequence = (db.sequence + 1) % 2 ^ 64) := by
  cases c with
  | create req =>
    simp only [Call.assigned, Call.next, CreateBlog]
    cases hb : req.Blog with
    | none => simp
    | some blog =>
      simp only [Bucket.NextSequence]
      cases hm : codec.marshal (some { blog with Id := (db.sequence + 1) % 2 ^ 64 }) with
      | error e => simp
      | ok bytes =>
        simp only []
        cases hp : Bucket.Put ⟨db.entries, (db.sequence + 1) % 2 ^ 64, db.ascending⟩
            (uitob ((db.sequence + 1) % 2 ^ 64)) bytes with
        | error e => simp
        | ok db' =>
          right
          simp only [Option.map_some', true_and]
          unfold Bucket.Put at hp
          split_ifs at hp
          cases hp
          rfl
  | update req =>
    left
    refine ⟨rfl, ?_⟩
    simp only [Call.next, UpdateBlog]
    cases hget : db.Get (uitob (getId req.Blog)) with
    | none => rfl
    | some blogBytes =>
      cases hm : codec.marshal req.Blog with
      | error e => rfl
      | ok bytes =>
        simp only []
        cases hp : db.Put (uitob (getId req.Blog)) bytes with
        | error e => rfl
        | ok db' =>
          unfold Bucket.Put at hp
          split_ifs at hp
          cases hp
          rfl
  | delete req =>
    left
    refine ⟨rfl, ?_⟩
    simp only [Call.next, DeleteBlog]
    cases hprint : printBlogs codec db.entries with
    | some e => rfl
    | none =>
      cases hget : db.Get (uitob req.BlogId) with
      | none => rfl
      | some blogBytes =>
        simp only []
        cases hprint' : printBlogs codec (db.Delete (uitob req.BlogId)).entries with
        | some e => rfl
        | none => rfl

/-- From a bucket whose counter can still be incremented once per call without
wrapping, the identifiers assigned lie above the counter and increase strictly. -/
theorem assignedIds_increasing (codec : Codec) (calls : List Call) : ∀ (db : Bucket),
    db.sequence + calls.length < 2 ^ 64 →
    (∀ id ∈ assignedIds codec db calls, db.sequence < id) ∧
    (assignedIds codec db calls).Pairwise (fun a b => a < b) := by
  induction calls with
  | nil => intro db _; simp [assignedIds]
  | cons c rest ih =>
    intro db hlen
    simp only [List.length_cons] at hlen
    rcases Call.sequence_step codec db c with ⟨ha, hs⟩ | ⟨ha, hs⟩
    · obtain ⟨h1, h2⟩ := ih (c.next codec db) (by rw [hs]; omega)
      simp only [assignedIds, ha]
      rw [hs] at h1
      exact ⟨h1, h2⟩
    · have hmod : (db.sequence + 1) % 2 ^ 64 = db.sequence + 1 :=
        Nat.mod_eq_of_lt (by omega)
      obtain ⟨h1, h2⟩ := ih (c.next codec db) (by rw [hs, hmod]; omega)
      simp only [assignedIds, ha]
      rw [hs, hmod] at h1
      refine ⟨?_, List.pairwise_cons.2 ⟨?_, h2⟩⟩
      · intro id hid
        rcases List.mem_cons.1 hid with rfl | hid
        · omega
        · have := h1 id hid; omega
      · intro id hid
        rw [hmod]
        exact h1 id hid

/-- C4: in every sequence of fewer than 2^64 `CreateBlog`, `UpdateBlog` and
`DeleteBlog` calls starting from the empty bucket (2^64 being the range of the
bucket's `uint64` sequence counter), whatever the requests carry, the
identifiers assigned by the `CreateBlog` calls are strictly increasing in the
order of the calls: each is greater than every identifier assigned earlier, so
no identifier is assigned twice, whether or not it was deleted in between. -/
theorem CreateBlog_ids_strictly_increasing (codec : Codec) (calls : List Call)
    (hlen : calls.length < 2 ^ 64) :
    (assignedIds codec Bucket.empty calls).Pairwise (fun a b => a < b) :=
  (assignedIds_increasing codec calls Bucket.empty
    (by simpa [Bucket.empty] using hlen)).2

/-- C4 on a sequence that creates a blog carrying id 7, deletes the blog 1 it
was stored as, and creates again: the identifiers assigned are 1 and 2. -/
theorem CreateBlog_ids_strictly_increasing_witness :
    assignedIds fixedWidthCodec Bucket.empty
      [.create { Blog := some { axlBlog with Id := 7 } }, .delete { BlogId := 1 },
        .create { Blog := some axlBlog }] = [1, 2] ∧
    (assignedIds fixedWidthCodec Bucket.empty
      [.create { Blog := some { axlBlog with Id := 7 } }, .delete { BlogId := 1 },
        .create { Blog := some axlBlog }]).Pairwise (fun a b => a < b) :=
  ⟨rfl, CreateBlog_ids_strictly_increasing fixedWidthCodec _ (by decide)⟩

theorem keysAscending_unique (entries : List (Bytes × Bytes)) (h : KeysAscending entries) :
    ∀ e1 ∈ entries, ∀ e2 ∈ entries, e1.1 = e2.1 → e1 = e2 := by
  unfold KeysAscending at h
  induction entries with
  | nil => intro e1 h1; simp at h1
  | cons hd tl ih =>
    rw [List.pairwise_cons] at h
    have hne : ∀ e ∈ tl, hd.1 ≠ e.1 := by
      intro e he heq
      have hlt := h.1 e he
      rw [heq, (bytesCompare_eq_iff e.1 e.1).2 rfl] at hlt
      exact absurd hlt (by decide)
    intro e1 h1 e2 h2 heq
    rcases List.mem_cons.1 h1 with h1' | h1' <;> rcases List.mem_cons.1 h2 with h2' | h2'
    · rw [h1', h2']
    · rw [h1'] at heq
      exact absurd heq (hne e2 h2')
    · rw [h2'] at heq
      exact absurd heq.symm (hne e1 h1')
    · exact ih h.2 e1 h1' e2 h2' heq

theorem blogOfPointer_id (p : Option Blog) : (blogOfPointer p).Id = getId p := by
  cases p <;> rfl

theorem storedUnderOwnId_insertEntry (codec : Codec) (hlaw : codec.RoundTrips)
    (entries : List (Bytes × Bytes)) (p : Option Blog) (bytes : Bytes)
    (hinv : StoredUnderOwnId codec entries) (hid : getId p < 2 ^ 64)
    (hm : codec.marshal p = .ok bytes) :
    StoredUnderOwnId codec (insertEntry (uitob (getId p)) bytes entries) := by
  intro e he
  rcases mem_insertEntry _ _ _ _ he with rfl | he
  · exact ⟨blogOfPointer p, hlaw p bytes hm, by rw [blogOfPointer_id],
      by rw [blogOfPointer_id]; exact hid⟩
  · exact hinv e he

/-- Every call of a well-typed request keeps each stored record under the key
that encodes its id. -/
theorem Call.next_storedUnderOwnId (codec : Codec) (hlaw : codec.RoundTrips) (db : Bucket)
    (c : Call) (hc : c.WellTyped) (hinv : StoredUnderOwnId codec db.entries) :
    StoredUnderOwnId codec (c.next codec db).entries := by
  cases c with
  | create req =>
    simp only [Call.next, CreateBlog]
    cases hb : req.Blog with
    | none => exact hinv
    | some blog =>
      simp only [Bucket.NextSequence]
      cases hm : codec.marshal (some { blog with Id := (db.sequence + 1) % 2 ^ 64 }) with
      | error e => exact hinv
      | ok bytes =>
        simp only []
        cases hp : Bucket.Put ⟨db.entries, (db.sequence + 1) % 2 ^ 64, db.ascending⟩
            (uitob ((db.sequence + 1) % 2 ^ 64)) bytes with
        | error e => exact hinv
        | ok db' =>
          unfold Bucket.Put at hp
          split_ifs at hp
          cases hp
          exact storedUnderOwnId_insertEntry codec hlaw db.entries
            (some { blog with Id := (db.sequence + 1) % 2 ^ 64 }) bytes hinv
            (Nat.mod_lt _ (by decide)) hm
  | update req =>
    simp only [Call.next, UpdateBlog]
    cases hget : db.Get (uitob (getId req.Blog)) with
    | none => exact hinv
    | some blogBytes =>
      cases hm : codec.marshal req.Blog with
      | error e => exact hinv
      | ok bytes =>
        simp only []
        cases hp : db.Put (uitob (getId req.Blog)) bytes with
        | error e => exact hinv
        | ok db' =>
          unfold Bucket.Put at hp
          split_ifs at hp
          cases hp
          exact storedUnderOwnId_insertEntry codec hlaw db.entries req.Blog bytes hinv hc hm
  | delete req =>
    have herase : StoredUnderOwnId codec (db.Delete (uitob req.BlogId)).entries := by
      intro e he
      exact hinv e (List.mem_of_mem_filter he)
    simp only [Call.next, DeleteBlog]
    cases hprint : printBlogs codec db.entries with
    | some e => exact hinv
    | none =>
      cases hget : db.Get (uitob req.BlogId) with
      | none => exact hinv
      | some blogBytes =>
        simp only []
        cases hprint' : printBlogs codec (db.Delete (uitob req.BlogId)).entries with
        | some e => exact herase
        | none => exact herase

theorem runCalls_storedUnderOwnId (codec : Codec) (hlaw : codec.RoundTrips)
    (calls : List Call) : ∀ (db : Bucket), (∀ c ∈ calls, c.WellTyped) →
    StoredUnderOwnId codec db.entries →
    StoredUnderOwnId codec (runCalls codec db calls).entries := by
  induction calls with
  | nil => intro db _ hinv; exact hinv
  | cons c rest ih =>
    intro db htyped hinv
    exact ih (c.next codec db) (fun c' hc' => htyped c' (by simp [hc']))
      (Call.next_storedUnderOwnId codec hlaw db c (htyped c (by simp)) hinv)

/-- C5: in every bucket reached from the empty bucket by `CreateBlog`,
`UpdateBlog` and `DeleteBlog` calls (of requests whose `uint64` fields are in
range, with a codec that reads back what it wrote), every stored value is a
record whose id is the 64-bit number its key encodes, and no two stored
records share a key: an identifier addresses at most one record, and no call
leaves a record under a key other than its id. -/
theorem stored_id_is_key (codec : Codec) (hlaw : codec.RoundTrips) (calls : List Call)
    (htyped : ∀ c ∈ calls, c.WellTyped) :
    (∀ e ∈ (runCalls codec Bucket.empty calls).entries,
      ∃ blog, codec.unmarshal e.2 = .ok blog ∧ btoui e.1 = some blog.Id ∧
        e.1 = uitob blog.Id) ∧
    (∀ e1 ∈ (runCalls codec Bucket.empty calls).entries,
      ∀ e2 ∈ (runCalls codec Bucket.empty calls).entries, e1.1 = e2.1 → e1 = e2) := by
  refine ⟨?_, keysAscending_unique _ (runCalls codec Bucket.empty calls).ascending⟩
  intro e he
  obtain ⟨blog, hu, hkey, hid⟩ :=
    runCalls_storedUnderOwnId codec hlaw calls Bucket.empty htyped
      (by intro e he; simp [Bucket.empty] at he) e he
  refine ⟨blog, hu, ?_, hkey⟩
  rw [hkey, btoui_uitob, Nat.mod_eq_of_lt hid]

theorem btoui_uitob_append (v : Nat) (tail : Bytes) :
    btoui (uitob v ++ tail) = some (v % 2 ^ 64) := by
  simp only [uitob, btoui, List.cons_append, Option.some.injEq]
  omega

theorem char_toNat_lt (c : Char) : c.toNat < 2 ^ 32 := by
  have h := c.valid
  simp only [UInt32.isValidChar, Nat.isValidChar] at h
  show c.val.toNat < 2 ^ 32
  omega

theorem getChars_flatMap (cs : List Char) (tail : Bytes) :
    getChars cs.length (cs.flatMap (fun c => be32 c.toNat) ++ tail) = some (cs, tail) := by
  induction cs with
  | nil => simp [getChars]
  | cons c cs ih =>
    have hc := char_toNat_lt c
    have hval : c.toNat / 2 ^ 24 % 256 * 2 ^ 24 + c.toNat / 2 ^ 16 % 256 * 2 ^ 16 +
        c.toNat / 2 ^ 8 % 256 * 2 ^ 8 + c.toNat % 256 = c.toNat := by omega
    rw [List.flatMap_cons, List.append_assoc, List.length_cons]
    show getChars (cs.length + 1) (c.toNat / 2 ^ 24 % 256 :: c.toNat / 2 ^ 16 % 256 ::
      c.toNat / 2 ^ 8 % 256 :: c.toNat % 256 ::
        (cs.flatMap (fun c => be32 c.toNat) ++ tail)) = some (c :: cs, tail)
    rw [getChars, ih]
    simp only [hval, Char.ofNat_toNat]

theorem getString_putString (s : String) (tail : Bytes) (hs : s.length < 2 ^ 32) :
    getString (putString s ++ tail) = some (s, tail) := by
  have hlen : s.length / 2 ^ 24 % 256 * 2 ^ 24 + s.length / 2 ^ 16 % 256 * 2 ^ 16 +
      s.length / 2 ^ 8 % 256 * 2 ^ 8 + s.length % 256 = s.data.length := by
    show _ = s.length
    omega
  unfold putString
  rw [List.append_assoc]
  show getString (s.length / 2 ^ 24 % 256 :: s.length / 2 ^ 16 % 256 ::
    s.length / 2 ^ 8 % 256 :: s.length % 256 ::
      (s.data.flatMap (fun c => be32 c.toNat) ++ tail)) = some (s, tail)
  rw [getString, hlen, getChars_flatMap]

/-- The fixed-width codec reads back every blog it accepts to write. -/
theorem fixedWidthCodec_roundTrips : fixedWidthCodec.RoundTrips := by
  intro p bytes hm
  cases p with
  | none => simp [fixedWidthCodec] at hm
  | some blog =>
    simp only [fixedWidthCodec] at hm
    split_ifs at hm with hcond
    obtain ⟨hid, ha, ht, hc⟩ := hcond
    cases hm
    have hdrop : ∀ tail : Bytes, List.drop 8 (uitob blog.Id ++ tail) = tail := by
      intro tail; simp [uitob]
    simp only [fixedWidthCodec, blogOfPointer, List.append_assoc, btoui_uitob_append, hdrop,
      getString_putString _ _ ha, getString_putString _ _ ht]
    have hlast := getString_putString blog.Content [] hc
    rw [List.append_nil] at hlast
    simp only [hlast, Nat.mod_eq_of_lt hid]

/-- C5 on the bucket left by creating two blogs, rewriting the first and
deleting it: the one stored record has id 2 and sits under the key of 2. -/
theorem stored_id_is_key_witness :
    (runCalls fixedWidthCodec Bucket.empty
      [.create { Blog := some axlBlog }, .create { Blog := some axlBlog },
        .update { Blog := some { axlBlog with Id := 1, Title := "My first blog" } },
        .delete { BlogId := 1 }]).entries.map Prod.fst = [uitob 2] ∧
    ((∀ e ∈ (runCalls fixedWidthCodec Bucket.empty
        [.create { Blog := some axlBlog }, .create { Blog := some axlBlog },
          .update { Blog := some { axlBlog with Id := 1, Title := "My first blog" } },
          .delete { BlogId := 1 }]).entries,
      ∃ blog, fixedWidthCodec.unmarshal e.2 = .ok blog ∧ btoui e.1 = some blog.Id ∧
        e.1 = uitob blog.Id) ∧
    (∀ e1 ∈ (runCalls fixedWidthCodec Bucket.empty
        [.create { Blog := some axlBlog }, .create { Blog := some axlBlog },
          .update { Blog := some { axlBlog with Id := 1, Title := "My first blog" } },
          .delete { BlogId := 1 }]).entries,
      ∀ e2 ∈ (runCalls fixedWidthCodec Bucket.empty
        [.create { Blog := some axlBlog }, .create { Blog := some axlBlog },
          .update { Blog := some { axlBlog with Id := 1, Title := "My first blog" } },
          .delete { BlogId := 1 }]).entries, e1.1 = e2.1 → e1 = e2)) :=
  ⟨rfl, stored_id_is_key fixedWidthCodec fixedWidthCodec_roundTrips _ (by
    intro c hc
    simp only [List.mem_cons, List.mem_singleton, List.not_mem_nil, or_false] at hc
    rcases hc with rfl | rfl | rfl | rfl <;> simp [Call.WellTyped, getId, axlBlog])⟩

theorem foldl_bigEndian (bs : Bytes) : ∀ acc : Nat,
    bs.foldl (fun acc b => acc * 256 + b) acc =
      acc * 256 ^ bs.length + bs.foldl (fun acc b => acc * 256 + b) 0 := by
  induction bs with
  | nil => intro acc; simp
  | cons b bs ih =>
    intro acc
    rw [List.foldl_cons, List.foldl_cons, ih (acc * 256 + b), ih (0 * 256 + b),
      List.length_cons, pow_succ]
    ring

theorem bigEndianValue_cons (b : Nat) (bs : Bytes) :
    bigEndianValue (b :: bs) = b * 256 ^ bs.length + bigEndianValue bs := by
  unfold bigEndianValue
  rw [List.foldl_cons, foldl_bigEndian bs (0 * 256 + b)]
  simp

theorem bigEndianValue_lt (bs : Bytes) (hbs : ∀ b ∈ bs, b < 256) :
    bigEndianValue bs < 256 ^ bs.length := by
  induction bs with
  | nil => simp [bigEndianValue]
  | cons b bs ih =>
    have hb : b < 256 := hbs b (by simp)
    have hrest := ih (fun x hx => hbs x (by simp [hx]))
    rw [bigEndianValue_cons, List.length_cons, pow_succ]
    have hmul : b * 256 ^ bs.length + 256 ^ bs.length ≤ 256 * 256 ^ bs.length := by
      have := Nat.mul_le_mul_right (256 ^ bs.length) (show b + 1 ≤ 256 by omega)
      rw [Nat.add_mul, Nat.one_mul] at this
      exact this
    omega

/-- On byte strings of one length, `bytes.Compare` is the comparison of the
numbers they denote in big-endian. -/
theorem bytesCompare_eq_of_length_eq (xs : Bytes) : ∀ (ys : Bytes),
    xs.length = ys.length → (∀ b ∈ xs, b < 256) → (∀ b ∈ ys, b < 256) →
    bytesCompare xs ys =
      if bigEndianValue xs < bigEndianValue ys then Ordering.lt
      else if bigEndianValue ys < bigEndianValue xs then Ordering.gt else Ordering.eq := by
  induction xs with
  | nil =>
    intro ys hlen _ _
    cases ys with
    | nil => simp [bytesCompare, bigEndianValue]
    | cons y ys => simp at hlen
  | cons x xs ih =>
    intro ys hlen hxs hys
    cases ys with
    | nil => simp at hlen
    | cons y ys =>
      have hlen' : xs.length = ys.length := by simpa using hlen
      have hxs' : ∀ b ∈ xs, b < 256 := fun b hb => hxs b (by simp [hb])
      have hys' : ∀ b ∈ ys, b < 256 := fun b hb => hys b (by simp [hb])
      have hvx := bigEndianValue_lt xs hxs'
      have hvy := bigEndianValue_lt ys hys'
      rw [← hlen'] at hvy
      rw [bytesCompare, bigEndianValue_cons, bigEndianValue_cons, ← hlen', ih ys hlen' hxs' hys']
      by_cases h1 : x < y
      · have hmul := Nat.mul_le_mul_right (256 ^ xs.length) (show x + 1 ≤ y from h1)
        rw [Nat.add_mul, Nat.one_mul] at hmul
        rw [if_pos h1, if_pos (by omega)]
      · by_cases h2 : y < x
        · have hmul := Nat.mul_le_mul_right (256 ^ xs.length) (show y + 1 ≤ x from h2)
          rw [Nat.add_mul, Nat.one_mul] at hmul
          rw [if_neg h1, if_pos h2, if_neg (by omega), if_pos (by omega)]
        · have hxy : x = y := by omega
          subst hxy
          rw [if_neg h1, if_neg h2]
          by_cases h3 : bigEndianValue xs < bigEndianValue ys
          · rw [if_pos h3, if_pos (by omega)]
          · by_cases h4 : bigEndianValue ys < bigEndianValue xs
            · rw [if_neg h3, if_pos h4, if_neg (by omega), if_pos (by omega)]
            · rw [if_neg h3, if_neg h4, if_neg (by omega), if_neg (by omega)]

theorem uitob_lt_256 (v : Nat) : ∀ b ∈ uitob v, b < 256 := by
  intro b hb
  simp only [uitob, List.mem_cons, List.mem_singleton, List.not_mem_nil, or_false] at hb
  omega

theorem bigEndianValue_uitob (v : Nat) : bigEndianValue (uitob v) = v % 2 ^ 64 := by
  simp only [bigEndianValue, uitob, List.foldl_cons, List.foldl_nil]
  omega

/-- The bytes of `uitob` compare as the numbers they encode. -/
theorem bytesCompare_uitob (a b : Nat) (ha : a < 2 ^ 64) (hb : b < 2 ^ 64) :
    bytesCompare (uitob a) (uitob b) =
      if a < b then Ordering.lt else if b < a then Ordering.gt else Ordering.eq := by
  rw [bytesCompare_eq_of_length_eq (uitob a) (uitob b) rfl (uitob_lt_256 a) (uitob_lt_256 b),
    bigEndianValue_uitob, bigEndianValue_uitob, Nat.mod_eq_of_lt ha, Nat.mod_eq_of_lt hb]

theorem uitob_injective (v w : Nat) (hv : v < 2 ^ 64) (hw : w < 2 ^ 64)
    (h : uitob v = uitob w) : v = w := by
  have h1 := btoui_uitob v
  rw [h, btoui_uitob, Nat.mod_eq_of_lt hw, Nat.mod_eq_of_lt hv] at h1
  exact (Option.some.inj h1).symm

/-- C13: for every `uint64` value v, `uitob v` is 8 bytes long, each below 256,
it is the big-endian encoding of v (byte i is digit 7 - i of v in base 256, and
reading the bytes most significant first gives v), and `btoui (uitob v) = v`;
hence two `uint64` values with the same key are equal. -/
theorem uitob_bigEndian (v : Nat) (hv : v < 2 ^ 64) :
    (uitob v).length = 8 ∧ (∀ b ∈ uitob v, b < 256) ∧
    uitob v = (List.range 8).map (fun i => v / 256 ^ (7 - i) % 256) ∧
    bigEndianValue (uitob v) = v ∧
    btoui (uitob v) = some v ∧
    (∀ w, w < 2 ^ 64 → uitob v = uitob w → v = w) := by
  refine ⟨rfl, uitob_lt_256 v, ?_, ?_, ?_, ?_⟩
  · simp only [uitob, List.range, List.range.loop, List.map_cons, List.map_nil]
    norm_num
  · rw [bigEndianValue_uitob, Nat.mod_eq_of_lt hv]
  · rw [btoui_uitob, Nat.mod_eq_of_lt hv]
  · intro w hw h
    exact uitob_injective v w hv hw h

/-- C13 at the identifier 258: the key is 0, 0, 0, 0, 0, 0, 1, 2. -/
theorem uitob_bigEndian_witness :
    uitob 258 = [0, 0, 0, 0, 0, 0, 1, 2] ∧
    ((uitob 258).length = 8 ∧ (∀ b ∈ uitob 258, b < 256) ∧
    uitob 258 = (List.range 8).map (fun i => 258 / 256 ^ (7 - i) % 256) ∧
    bigEndianValue (uitob 258) = 258 ∧
    btoui (uitob 258) = some 258 ∧
    (∀ w, w < 2 ^ 64 → uitob 258 = uitob w → 258 = w)) :=
  ⟨rfl, uitob_bigEndian 258 (by decide)⟩

/-- The cursor walk over values that all unmarshal: it ends normally and has
sent, after what was sent before, one message per entry, carrying the blog the
entry's value unmarshals to, in the order of the entries. -/
theorem listBlogLoop_ok (codec : Codec) (entries : List (Bytes × Bytes)) :
    ∀ (sent : List ListBlogResponse),
    (∀ e ∈ entries, ∃ blog, codec.unmarshal e.2 = .ok blog) →
    ∃ msgs, listBlogLoop codec sent entries = (.ok (), sent ++ msgs) ∧
      List.Forall₂ (fun e m => ∃ blog, codec.unmarshal e.2 = .ok blog ∧
        m = ListBlogResponse.mk (some blog)) entries msgs := by
  induction entries with
  | nil => intro sent _; exact ⟨[], by simp [listBlogLoop], List.Forall₂.nil⟩
  | cons hd tl ih =>
    intro sent hvalues
    obtain ⟨k, v⟩ := hd
    obtain ⟨blog, hb⟩ := hvalues (k, v) (by simp)
    obtain ⟨msgs, hrun, hall⟩ := ih (sent ++ [ListBlogResponse.mk (some blog)])
      (fun e he => hvalues e (by simp [he]))
    refine ⟨ListBlogResponse.mk (some blog) :: msgs, ?_, List.Forall₂.cons ⟨blog, hb, rfl⟩ hall⟩
    simp only [] at hb
    simp only [listBlogLoop, hb, hrun, List.append_assoc, List.singleton_append]

/-- C11: for every bucket whose stored values all unmarshal, `ListBlog` returns
no error and sends exactly one message per stored record: as many messages as
there are records, the i-th message carrying the blog that the i-th stored
value unmarshals to; on a bucket without records it sends nothing. -/
theorem ListBlog_one_message_per_record (codec : Codec) (db : Bucket)
    (hvalues : ∀ e ∈ db.entries, ∃ blog, codec.unmarshal e.2 = .ok blog) :
    ∃ sent, ListBlog codec db = (.ok (), sent) ∧
      sent.length = db.entries.length ∧
      List.Forall₂ (fun e m => ∃ blog, codec.unmarshal e.2 = .ok blog ∧
        m = ListBlogResponse.mk (some blog)) db.entries sent ∧
      (db.entries = [] → sent = []) ∧
      ListBlog codec Bucket.empty = (.ok (), []) := by
  obtain ⟨msgs, hrun, hall⟩ := listBlogLoop_ok codec db.entries [] hvalues
  refine ⟨msgs, by simpa [ListBlog] using hrun, hall.length_eq.symm, hall, ?_, rfl⟩
  intro hempty
  rw [hempty] at hall
  cases hall
  rfl

theorem twoBlogsBucket_entries :
    twoBlogsBucket.entries =
      [(uitob 1, uitob 1 ++ putString axlBlog.AuthorId ++ putString axlBlog.Title ++
          putString axlBlog.Content),
        (uitob 2, uitob 2 ++ putString axlBlog.AuthorId ++ putString axlBlog.Title ++
          putString axlBlog.Content)] := rfl

theorem twoBlogsBucket_values :
    ∀ e ∈ twoBlogsBucket.entries, ∃ blog, fixedWidthCodec.unmarshal e.2 = .ok blog := by
  intro e he
  rw [twoBlogsBucket_entries] at he
  simp only [List.mem_cons, List.mem_singleton, List.not_mem_nil, or_false] at he
  rcases he with rfl | rfl
  · exact ⟨{ axlBlog with Id := 1 }, rfl⟩
  · exact ⟨{ axlBlog with Id := 2 }, rfl⟩

/-- C11 on the bucket holding two blogs: two messages, the blogs 1 and 2. -/
theorem ListBlog_one_message_per_record_witness :
    ListBlog fixedWidthCodec twoBlogsBucket =
      (.ok (), [ListBlogResponse.mk (some { axlBlog with Id := 1 }),
        ListBlogResponse.mk (some { axlBlog with Id := 2 })]) ∧
    ∃ sent, ListBlog fixedWidthCodec twoBlogsBucket = (.ok (), sent) ∧
      sent.length = twoBlogsBucket.entries.length ∧
      List.Forall₂ (fun e m => ∃ blog, fixedWidthCodec.unmarshal e.2 = .ok blog ∧
        m = ListBlogResponse.mk (some blog)) twoBlogsBucket.entries sent ∧
      (twoBlogsBucket.entries = [] → sent = []) ∧
      ListBlog fixedWidthCodec Bucket.empty = (.ok (), []) :=
  ⟨rfl, ListBlog_one_message_per_record fixedWidthCodec twoBlogsBucket twoBlogsBucket_values⟩

theorem printBlogs_of_failure (codec : Codec) (entries : List (Bytes × Bytes))
    (hbad : ∃ e ∈ entries, ∃ msg, codec.unmarshal e.2 = .error msg) :
    ∃ msg, printBlogs codec entries = some msg := by
  induction entries with
  | nil => obtain ⟨e, he, _⟩ := hbad; simp at he
  | cons hd tl ih =>
    obtain ⟨k, v⟩ := hd
    cases hu : codec.unmarshal v with
    | error msg => exact ⟨msg, by simp only [printBlogs, hu]⟩
    | ok blog =>
      obtain ⟨e, he, msg, hmsg⟩ := hbad
      rcases List.mem_cons.1 he with h | h
      · rw [h] at hmsg
        simp only [] at hmsg
        rw [hu] at hmsg
        cases hmsg
      · obtain ⟨m, hm⟩ := ih ⟨e, h, msg, hmsg⟩
        exact ⟨m, by simp only [printBlogs, hu, hm]⟩

theorem listBlogLoop_of_failure (codec : Codec) (entries : List (Bytes × Bytes)) :
    ∀ (sent : List ListBlogResponse),
    (∃ e ∈ entries, ∃ msg, codec.unmarshal e.2 = .error msg) →
    ∃ msg sent', listBlogLoop codec sent entries =
      (.err (.status Code.Internal msg), sent') := by
  induction entries with
  | nil => intro sent hbad; obtain ⟨e, he, _⟩ := hbad; simp at he
  | cons hd tl ih =>
    intro sent hbad
    obtain ⟨k, v⟩ := hd
    cases hu : codec.unmarshal v with
    | error msg =>
      exact ⟨"Unmarshal error: " ++ msg ++ "\n", sent, by simp only [listBlogLoop, hu]⟩
    | ok blog =>
      obtain ⟨e, he, msg, hmsg⟩ := hbad
      rcases List.mem_cons.1 he with h | h
      · rw [h] at hmsg
        simp only [] at hmsg
        rw [hu] at hmsg
        cases hmsg
      · obtain ⟨m, sent', hm⟩ := ih (sent ++ [ListBlogResponse.mk (some blog)]) ⟨e, h, msg, hmsg⟩
        exact ⟨m, sent', by simp only [listBlogLoop, hu, hm]⟩

/-- C12, amended: when a stored value fails to unmarshal, `ListBlog` returns an
error with status code `Internal`, `ReadBlog` of the identifier of such a value
returns an error with status code `Internal`, and `DeleteBlog`, whatever the
identifier, ends the process in `log.Fatalf` with the bucket as it was. -/
theorem unmarshal_failure_outcomes (codec : Codec) (db : Bucket)
    (hbad : ∃ e ∈ db.entries, ∃ msg, codec.unmarshal e.2 = .error msg) :
    (ListBlog codec db).1.errCode = some Code.Internal ∧
    (∀ req : ReadBlogRequest, ∀ bytes msg, db.Get (uitob req.BlogId) = some bytes →
      codec.unmarshal bytes = .error msg →
      (ReadBlog codec db req).errCode = some Code.Internal) ∧
    (∀ req : DeleteBlogRequest, ∃ msg, DeleteBlog codec db req = (.exit msg, db)) := by
  refine ⟨?_, ?_, ?_⟩
  · obtain ⟨msg, sent', h⟩ := listBlogLoop_of_failure codec db.entries [] hbad
    simp only [ListBlog, h, Outcome.errCode, GoError.code]
  · intro req bytes msg hget hu
    simp only [ReadBlog, hget, hu, Outcome.errCode, GoError.code]
  · intro req
    obtain ⟨msg, h⟩ := printBlogs_of_failure codec db.entries hbad
    exact ⟨"Something went wrong: " ++ msg ++ "\n\n", by simp only [DeleteBlog, h]⟩

/-- C12, amended, on the bucket whose key 2 holds a value that does not
unmarshal: `ListBlog` sends the blog 1 and returns `Internal`. -/
theorem unmarshal_failure_outcomes_witness :
    ListBlog fixedWidthCodec strayAfterBlogBucket =
      (.err (.status Code.Internal "Unmarshal error: unexpected EOF\n"),
        [ListBlogResponse.mk (some (Blog.mk 1 "Axl" "Axl's blog" "Content"))]) ∧
    ((ListBlog fixedWidthCodec strayAfterBlogBucket).1.errCode = some Code.Internal ∧
    (∀ req : ReadBlogRequest, ∀ bytes msg,
      strayAfterBlogBucket.Get (uitob req.BlogId) = some bytes →
      fixedWidthCodec.unmarshal bytes = .error msg →
      (ReadBlog fixedWidthCodec strayAfterBlogBucket req).errCode = some Code.Internal) ∧
    (∀ req : DeleteBlogRequest, ∃ msg,
      DeleteBlog fixedWidthCodec strayAfterBlogBucket req =
        (.exit msg, strayAfterBlogBucket))) :=
  ⟨rfl, unmarshal_failure_outcomes fixedWidthCodec strayAfterBlogBucket
    ⟨(uitob 2, [255]), by simp [strayAfterBlogBucket], "unexpected EOF", rfl⟩⟩

/-- C12 as stated fails: with a stored value that does not unmarshal under key
1, `DeleteBlog` of 1 fails to deserialize it and ends the process in
`log.Fatalf`; no error with status code `Internal` is returned. -/
theorem DeleteBlog_unmarshal_failure_exits :
    strayValueBucket.Get (uitob 1) = some [255] ∧
    fixedWidthCodec.unmarshal [255] = .error "unexpected EOF" ∧
    (DeleteBlog fixedWidthCodec strayValueBucket { BlogId := 1 }).1 =
      .exit "Something went wrong: unexpected EOF\n\n" ∧
    (DeleteBlog fixedWidthCodec strayValueBucket { BlogId := 1 }).1.errCode = none :=
  ⟨rfl, rfl, rfl, rfl⟩

/-- A record that fails to marshal in `UpdateBlog`: the library's error is
returned as it is, not as a status error, and the bucket is left as it was. -/
theorem UpdateBlog_marshal_failure (codec : Codec) (db : Bucket) (req : UpdateBlogRequest)
    (bytes : Bytes) (msg : String) (hget : db.Get (uitob (getId req.Blog)) = some bytes)
    (hm : codec.marshal req.Blog = .error msg) :
    UpdateBlog codec db req = (.err (.other msg), db) ∧
    (UpdateBlog codec db req).1.errCode = some Code.Unknown := by
  simp only [UpdateBlog, hget, hm, Outcome.errCode, GoError.code, and_self]

/-- A record that fails to marshal in `CreateBlog`: the process ends in
`log.Fatalf`, and the `Internal` error below it in the source is never
returned. -/
theorem CreateBlog_marshal_failure (codec : Codec) (db : Bucket) (blog : Blog) (msg : String)
    (hm : codec.marshal (some { blog with Id := db.NextSequence.1 }) = .error msg) :
    CreateBlog codec db { Blog := some blog } = (.exit ("Could not create blog: " ++ msg), db) := by
  simp only [CreateBlog, hm]

theorem lookupKey_some_mem (key value : Bytes) (entries : List (Bytes × Bytes))
    (h : lookupKey key entries = some value) : (key, value) ∈ entries := by
  induction entries with
  | nil => simp [lookupKey] at h
  | cons hd tl ih =>
    obtain ⟨k, v⟩ := hd
    by_cases hk : k = key
    · simp only [lookupKey, hk, if_true, Option.some.injEq] at h
      simp [hk, h]
    · simp only [lookupKey, hk, if_false] at h
      exact List.mem_cons_of_mem _ (ih h)

/-- Storing under a key that already has a value leaves the keys as they were. -/
theorem insertEntry_keys (key value stored : Bytes) (entries : List (Bytes × Bytes))
    (hasc : KeysAscending entries) (hget : lookupKey key entries = some stored) :
    (insertEntry key value entries).map Prod.fst = entries.map Prod.fst := by
  unfold KeysAscending at hasc
  induction entries with
  | nil => simp [lookupKey] at hget
  | cons hd tl ih =>
    obtain ⟨k, v⟩ := hd
    rw [List.pairwise_cons] at hasc
    simp only [insertEntry]
    split
    next hlt =>
      exfalso
      have hmem := lookupKey_some_mem key stored _ hget
      rcases List.mem_cons.1 hmem with h | h
      · have hk : key = k := congrArg Prod.fst h
        rw [hk, (bytesCompare_eq_iff k k).2 rfl] at hlt
        exact absurd hlt (by decide)
      · have h1 := bytesCompare_lt_trans _ _ _ hlt (hasc.1 _ h)
        rw [(bytesCompare_eq_iff key key).2 rfl] at h1
        exact absurd h1 (by decide)
    next heq =>
      have hk : key = k := (bytesCompare_eq_iff _ _).1 heq
      simp [hk]
    next hgt =>
      have hne : k ≠ key := by
        intro h
        rw [h, (bytesCompare_eq_iff key key).2 rfl] at hgt
        exact absurd hgt (by decide)
      simp only [lookupKey, hne, if_false] at hget
      simp only [List.map_cons, ih hasc.2 hget]

/-- C14: for every bucket and every `UpdateBlog` request whose blog has the id
of a stored record (the codec encoding that blog in bytes it decodes back),
`UpdateBlog` succeeds and returns the request's blog; afterwards that id holds
the request's blog, read back by `ReadBlog` with its author id, title and
content, while every other key holds what it held, the stored keys are the
same and the sequence counter is unchanged. -/
theorem UpdateBlog_rewrites_one_record (codec : Codec) (db : Bucket) (blog : Blog)
    (bytes stored : Bytes) (hget : db.Get (uitob blog.Id) = some stored)
    (henc : codec.Encodes blog bytes) :
    ∃ db', UpdateBlog codec db { Blog := some blog } = (.ok { Blog := some blog }, db') ∧
      db'.Get (uitob blog.Id) = some bytes ∧
      ReadBlog codec db' { BlogId := blog.Id } = .ok { Blog := some blog } ∧
      (∀ key, key ≠ uitob blog.Id → db'.Get key = db.Get key) ∧
      db'.entries.map Prod.fst = db.entries.map Prod.fst ∧
      db'.sequence = db.sequence := by
  obtain ⟨hm, hsize, hu⟩ := henc
  obtain ⟨db', hput, hentries, hseq⟩ := Bucket.Put_uitob db blog.Id bytes hsize
  have hself : db'.Get (uitob blog.Id) = some bytes := by
    simp only [Bucket.Get, hentries, lookupKey_insertEntry_self]
  refine ⟨db', ?_, hself, ?_, ?_, ?_, hseq⟩
  · simp only [UpdateBlog, getId, hget, hm, hput]
  · simp only [ReadBlog, hself, hu]
  · intro key hkey
    simp only [Bucket.Get, hentries, lookupKey_insertEntry_of_ne _ _ _ _ hkey]
  · rw [hentries]
    exact insertEntry_keys _ _ stored _ db.ascending hget

/-- C14 on the bucket holding two blogs, rewriting the blog 1: the blog 2 is
read back as before. -/
theorem UpdateBlog_rewrites_one_record_witness :
    ReadBlog fixedWidthCodec
        (UpdateBlog fixedWidthCodec twoBlogsBucket
          { Blog := some (Blog.mk 1 "luisg-villegas" "My first blog" "Updated") }).2
        { BlogId := 2 } = .ok { Blog := some { axlBlog with Id := 2 } } ∧
    ∃ db', UpdateBlog fixedWidthCodec twoBlogsBucket
        { Blog := some (Blog.mk 1 "luisg-villegas" "My first blog" "Updated") } =
        (.ok { Blog := some (Blog.mk 1 "luisg-villegas" "My first blog" "Updated") }, db') ∧
      db'.Get (uitob 1) = some (uitob 1 ++ putString "luisg-villegas" ++
        putString "My first blog" ++ putString "Updated") ∧
      ReadBlog fixedWidthCodec db' { BlogId := 1 } =
        .ok { Blog := some (Blog.mk 1 "luisg-villegas" "My first blog" "Updated") } ∧
      (∀ key, key ≠ uitob 1 → db'.Get key = twoBlogsBucket.Get key) ∧
      db'.entries.map Prod.fst = twoBlogsBucket.entries.map Prod.fst ∧
      db'.sequence = twoBlogsBucket.sequence :=
  ⟨rfl, UpdateBlog_rewrites_one_record fixedWidthCodec twoBlogsBucket
    (Blog.mk 1 "luisg-villegas" "My first blog" "Updated")
    (uitob 1 ++ putString "luisg-villegas" ++ putString "My first blog" ++ putString "Updated")
    (uitob 1 ++ putString axlBlog.AuthorId ++ putString axlBlog.Title ++
      putString axlBlog.Content)
    rfl ⟨rfl, by decide, rfl⟩⟩

/-- C15, amended: for every bucket whose stored values all unmarshal and every
identifier that has a stored value, `DeleteBlog` succeeds and returns that
identifier; afterwards `ReadBlog` of it returns `NotFound`, and every other
key holds what it held (the sequence counter is unchanged). -/
theorem DeleteBlog_removes_one_record (codec : Codec) (db : Bucket) (req : DeleteBlogRequest)
    (stored : Bytes)
    (hvalues : ∀ e ∈ db.entries, ∃ blog, codec.unmarshal e.2 = .ok blog)
    (hget : db.Get (uitob req.BlogId) = some stored) :
    ∃ db', DeleteBlog codec db req = (.ok { BlogId := req.BlogId }, db') ∧
      (∃ msg, ReadBlog codec db' { BlogId := req.BlogId } =
        .err (.status Code.NotFound msg)) ∧
      (∀ key, key ≠ uitob req.BlogId → db'.Get key = db.Get key) ∧
      db'.sequence = db.sequence := by
  have hafter : ∀ e ∈ (db.Delete (uitob req.BlogId)).entries,
      ∃ blog, codec.unmarshal e.2 = .ok blog :=
    fun e he => hvalues e (List.mem_of_mem_filter he)
  have hgone : (db.Delete (uitob req.BlogId)).Get (uitob req.BlogId) = none := by
    simp only [Bucket.Get, Bucket.Delete, lookupKey_eraseKey_self]
  refine ⟨db.Delete (uitob req.BlogId), ?_, ?_, ?_, rfl⟩
  · simp only [DeleteBlog, printBlogs_eq_none codec db.entries hvalues, hget,
      printBlogs_eq_none codec _ hafter]
  · exact ⟨"Could not find blog with id " ++ toString (req.BlogId % 2 ^ 64) ++ "\n",
      by simp only [ReadBlog, hgone, notFound_uitob]⟩
  · intro key hkey
    simp only [Bucket.Get, Bucket.Delete, lookupKey_eraseKey_of_ne _ _ _ hkey]

/-- C15, amended, on the bucket holding two blogs, as the client does: delete
the blog 2, then read it; the blog 1 is read back as before. -/
theorem DeleteBlog_removes_one_record_witness :
    ReadBlog fixedWidthCodec
        (DeleteBlog fixedWidthCodec twoBlogsBucket { BlogId := 2 }).2 { BlogId := 1 } =
      .ok { Blog := some { axlBlog with Id := 1 } } ∧
    ∃ db', DeleteBlog fixedWidthCodec twoBlogsBucket { BlogId := 2 } =
        (.ok { BlogId := 2 }, db') ∧
      (∃ msg, ReadBlog fixedWidthCodec db' { BlogId := 2 } =
        .err (.status Code.NotFound msg)) ∧
      (∀ key, key ≠ uitob 2 → db'.Get key = twoBlogsBucket.Get key) ∧
      db'.sequence = twoBlogsBucket.sequence :=
  ⟨rfl, DeleteBlog_removes_one_record fixedWidthCodec twoBlogsBucket { BlogId := 2 }
    (uitob 2 ++ putString axlBlog.AuthorId ++ putString axlBlog.Title ++
      putString axlBlog.Content)
    twoBlogsBucket_values rfl⟩

/-- C15 as stated fails: in a bucket where the identifier 1 addresses a stored
blog and key 2 holds a value that does not unmarshal, `DeleteBlog` of 1 ends
the process in `log.Fatalf` and the blog 1 is still stored. -/
theorem DeleteBlog_stored_id_exits :
    (ReadBlog fixedWidthCodec strayAfterBlogBucket { BlogId := 1 } =
      .ok { Blog := some (Blog.mk 1 "Axl" "Axl's blog" "Content") }) ∧
    (DeleteBlog fixedWidthCodec strayAfterBlogBucket { BlogId := 1 }).1 =
      .exit "Something went wrong: unexpected EOF\n\n" ∧
    (DeleteBlog fixedWidthCodec strayAfterBlogBucket { BlogId := 1 }).1.response = none ∧
    (DeleteBlog fixedWidthCodec strayAfterBlogBucket { BlogId := 1 }).2.entries =
      strayAfterBlogBucket.entries :=
  ⟨rfl, rfl, rfl, rfl⟩

theorem assignedIds_cons (codec : Codec) (db : Bucket) (c : Call) (rest : List Call) :
    assignedIds codec db (c :: rest) =
      (c.assigned codec db).toList ++ assignedIds codec (c.next codec db) rest := by
  cases h : c.assigned codec db <;> simp [assignedIds, h]

theorem assignedIds_lt (codec : Codec) (calls : List Call) : ∀ (db : Bucket),
    ∀ id ∈ assignedIds codec db calls, id < 2 ^ 64 := by
  induction calls with
  | nil => intro db id hid; simp [assignedIds] at hid
  | cons c rest ih =>
    intro db id hid
    rw [assignedIds_cons] at hid
    rcases List.mem_append.1 hid with h | h
    · rcases Call.sequence_step codec db c with ⟨ha, _⟩ | ⟨ha, _⟩
      · rw [ha] at h; simp at h
      · rw [ha] at h
        simp only [Option.toList_some, List.mem_singleton] at h
        rw [h]
        exact Nat.mod_lt _ (by decide)
    · exact ih _ id h

/-- What `CreateBlog` does to the stored entries: nothing, or it stores a value
under the key of the identifier it assigns. -/
theorem CreateBlog_entries (codec : Codec) (db : Bucket) (req : CreateBlogRequest) :
    (Call.next codec db (.create req)).entries = db.entries ∨
    ∃ bytes, (Call.next codec db (.create req)).entries =
        insertEntry (uitob ((db.sequence + 1) % 2 ^ 64)) bytes db.entries ∧
      Call.assigned codec db (.create req) = some ((db.sequence + 1) % 2 ^ 64) := by
  simp only [Call.assigned, Call.next, CreateBlog]
  cases hb : req.Blog with
  | none => left; rfl
  | some blog =>
    simp only [Bucket.NextSequence]
    cases hm : codec.marshal (some { blog with Id := (db.sequence + 1) % 2 ^ 64 }) with
    | error e => left; rfl
    | ok bytes =>
      simp only []
      cases hp : Bucket.Put ⟨db.entries, (db.sequence + 1) % 2 ^ 64, db.ascending⟩
          (uitob ((db.sequence + 1) % 2 ^ 64)) bytes with
      | error e => left; rfl
      | ok db' =>
        right
        unfold Bucket.Put at hp
        split_ifs at hp
        cases hp
        exact ⟨bytes, rfl, rfl⟩

/-- What `UpdateBlog` does to the stored entries: nothing, or it stores a value
under a key that already had one. -/
theorem UpdateBlog_entries (codec : Codec) (db : Bucket) (req : UpdateBlogRequest) :
    (Call.next codec db (.update req)).entries = db.entries ∨
    ∃ bytes stored, db.Get (uitob (getId req.Blog)) = some stored ∧
      (Call.next codec db (.update req)).entries =
        insertEntry (uitob (getId req.Blog)) bytes db.entries := by
  simp only [Call.next, UpdateBlog]
  cases hget : db.Get (uitob (getId req.Blog)) with
  | none => left; rfl
  | some stored =>
    cases hm : codec.marshal req.Blog with
    | error e => left; rfl
    | ok bytes =>
      simp only []
      cases hp : db.Put (uitob (getId req.Blog)) bytes with
      | error e => left; rfl
      | ok db' =>
        right
        unfold Bucket.Put at hp
        split_ifs at hp
        cases hp
        exact ⟨bytes, stored, rfl, rfl⟩

/-- What `DeleteBlog` does to the stored entries: it removes entries only. -/
theorem DeleteBlog_entries (codec : Codec) (db : Bucket) (req : DeleteBlogRequest) :
    ∀ e ∈ (Call.next codec db (.delete req)).entries, e ∈ db.entries := by
  have herase : ∀ e ∈ (db.Delete (uitob req.BlogId)).entries, e ∈ db.entries :=
    fun e he => List.mem_of_mem_filter he
  simp only [Call.next, DeleteBlog]
  cases hprint : printBlogs codec db.entries with
  | some e => exact fun e he => he
  | none =>
    cases hget : db.Get (uitob req.BlogId) with
    | none => exact fun e he => he
    | some stored =>
      simp only []
      cases hprint' : printBlogs codec (db.Delete (uitob req.BlogId)).entries with
      | some e => exact herase
      | none => exact herase

/-- The key a call stores under is a key already stored or the key of the
identifier the call assigns. -/
theorem Call.next_keys (codec : Codec) (db : Bucket) (c : Call) (ids : List Nat)
    (hkeys : ∀ e ∈ db.entries, ∃ id ∈ ids, e.1 = uitob id) :
    ∀ e ∈ (c.next codec db).entries,
      ∃ id ∈ ids ++ (c.assigned codec db).toList, e.1 = uitob id := by
  have hold : ∀ e ∈ db.entries, ∃ id ∈ ids ++ (c.assigned codec db).toList, e.1 = uitob id := by
    intro e he
    obtain ⟨id, hid, hk⟩ := hkeys e he
    exact ⟨id, List.mem_append_left _ hid, hk⟩
  cases c with
  | create req =>
    rcases CreateBlog_entries codec db req with h | ⟨bytes, h, ha⟩
    · rw [h]; exact hold
    · rw [h]
      intro e he
      rcases mem_insertEntry _ _ _ _ he with h' | h'
      · exact ⟨(db.sequence + 1) % 2 ^ 64, by rw [ha]; simp, by rw [h']⟩
      · exact hold e h'
  | update req =>
    rcases UpdateBlog_entries codec db req with h | ⟨bytes, stored, hget, h⟩
    · rw [h]; exact hold
    · rw [h]
      intro e he
      rcases mem_insertEntry _ _ _ _ he with h' | h'
      · obtain ⟨id, hid, hk⟩ := hold _ (lookupKey_some_mem _ _ _ hget)
        exact ⟨id, hid, by rw [h']; exact hk⟩
      · exact hold e h'
  | delete req =>
    intro e he
    exact hold e (DeleteBlog_entries codec db req e he)

theorem runCalls_keys (codec : Codec) (calls : List Call) : ∀ (db : Bucket) (ids : List Nat),
    (∀ e ∈ db.entries, ∃ id ∈ ids, e.1 = uitob id) →
    ∀ e ∈ (runCalls codec db calls).entries,
      ∃ id ∈ ids ++ assignedIds codec db calls, e.1 = uitob id := by
  induction calls with
  | nil => intro db ids h; simpa [runCalls, assignedIds] using h
  | cons c rest ih =>
    intro db ids h
    rw [assignedIds_cons, ← List.append_assoc]
    exact ih (c.next codec db) _ (Call.next_keys codec db c ids h)

theorem listBlogLoop_eq_map (codec : Codec) (entries : List (Bytes × Bytes))
    (msgs : List ListBlogResponse)
    (h : List.Forall₂ (fun e m => ∃ blog, codec.unmarshal e.2 = .ok blog ∧
      m = ListBlogResponse.mk (some blog)) entries msgs) :
    listedIds msgs = entries.map (fun e => getId (codec.unmarshal e.2).toOption) := by
  induction h with
  | nil => rfl
  | cons hhd _ ih =>
    obtain ⟨blog, hu, hm⟩ := hhd
    simp only [listedIds, List.map_cons] at ih ⊢
    rw [ih, hm, hu]
    rfl

/-- In a bucket whose records sit under the keys of their ids, `ListBlog` ends
normally and the ids of the blogs it sent are strictly ascending. -/
theorem ListBlog_ascending (codec : Codec) (db : Bucket)
    (hown : StoredUnderOwnId codec db.entries) :
    ∃ sent, ListBlog codec db = (.ok (), sent) ∧
      listedIds sent = db.entries.map (fun e => getId (codec.unmarshal e.2).toOption) ∧
      (listedIds sent).Pairwise (fun a b => a < b) := by
  have hvalues : ∀ e ∈ db.entries, ∃ blog, codec.unmarshal e.2 = .ok blog := by
    intro e he
    obtain ⟨blog, hu, _, _⟩ := hown e he
    exact ⟨blog, hu⟩
  obtain ⟨msgs, hrun, hall⟩ := listBlogLoop_ok codec db.entries [] hvalues
  have hmap := listBlogLoop_eq_map codec db.entries msgs hall
  refine ⟨msgs, by simpa [ListBlog] using hrun, hmap, ?_⟩
  rw [hmap, List.pairwise_map]
  refine List.Pairwise.imp_of_mem ?_ db.ascending
  intro e1 e2 h1 h2 hlt
  obtain ⟨b1, hu1, hk1, hid1⟩ := hown e1 h1
  obtain ⟨b2, hu2, hk2, hid2⟩ := hown e2 h2
  rw [hk1, hk2, bytesCompare_uitob _ _ hid1 hid2] at hlt
  rw [hu1, hu2]
  show b1.Id < b2.Id
  by_cases h : b1.Id < b2.Id
  · exact h
  · rw [if_neg h] at hlt
    split_ifs at hlt

/-- C16: the key encoding preserves order, `uitob a` being bytewise smaller than
`uitob b` exactly when `a < b` for `uint64` values; and in every bucket
reached from the empty bucket by fewer than 2^64 calls (of requests whose
`uint64` fields are in range, with a codec that reads back what it wrote),
`ListBlog` sends the stored records in strictly ascending order of id, which
is their order of creation: the ids sent are, in that order, among the ids the
`CreateBlog` calls assigned one after the other. -/
theorem ListBlog_order (codec : Codec) (hlaw : codec.RoundTrips) (calls : List Call)
    (htyped : ∀ c ∈ calls, c.WellTyped) (hlen : calls.length < 2 ^ 64) :
    (∀ a b, a < 2 ^ 64 → b < 2 ^ 64 →
      (bytesCompare (uitob a) (uitob b) = Ordering.lt ↔ a < b)) ∧
    ∃ sent, ListBlog codec (runCalls codec Bucket.empty calls) = (.ok (), sent) ∧
      (listedIds sent).Pairwise (fun a b => a < b) ∧
      (listedIds sent).Sublist (assignedIds codec Bucket.empty calls) := by
  refine ⟨?_, ?_⟩
  · intro a b ha hb
    rw [bytesCompare_uitob a b ha hb]
    by_cases h : a < b
    · simp [h]
    · simp only [h, if_false, iff_false]
      split_ifs <;> simp
  · have hown : StoredUnderOwnId codec (runCalls codec Bucket.empty calls).entries :=
      runCalls_storedUnderOwnId codec hlaw calls Bucket.empty htyped
        (by intro e he; simp [Bucket.empty] at he)
    obtain ⟨sent, hrun, hmap, hpair⟩ := ListBlog_ascending codec _ hown
    refine ⟨sent, hrun, hpair, ?_⟩
    have hassigned : (assignedIds codec Bucket.empty calls).Pairwise (fun a b => a < b) :=
      (assignedIds_increasing codec calls Bucket.empty
        (by simpa [Bucket.empty] using hlen)).2
    have hsubset : listedIds sent ⊆ assignedIds codec Bucket.empty calls := by
      intro id hid
      rw [hmap] at hid
      obtain ⟨e, he, hide⟩ := List.mem_map.1 hid
      obtain ⟨blog, hu, hk, hblog⟩ := hown e he
      obtain ⟨id', hid', hk'⟩ := runCalls_keys codec calls Bucket.empty []
        (by intro e he; simp [Bucket.empty] at he) e he
      rw [List.nil_append] at hid'
      have hlt' := assignedIds_lt codec calls Bucket.empty id' hid'
      have heq : blog.Id = id' := uitob_injective _ _ hblog hlt' (by rw [← hk, hk'])
      rw [hu] at hide
      rw [← hide]
      show blog.Id ∈ _
      rw [heq]
      exact hid'
    have hnodup : (listedIds sent).Nodup :=
      List.Pairwise.imp (fun h => Nat.ne_of_lt h) hpair
    exact List.sublist_of_subperm_of_sorted (r := fun a b : Nat => a < b)
      (hnodup.subperm hsubset) hpair hassigned

/-- C16 on three creations with the first blog deleted in between: the ids
assigned are 1, 2, 3 and `ListBlog` sends the blogs 2 and 3, in that order. -/
theorem ListBlog_order_witness :
    assignedIds fixedWidthCodec Bucket.empty
      [.create { Blog := some axlBlog }, .create { Blog := some axlBlog },
        .delete { BlogId := 1 }, .create { Blog := some axlBlog }] = [1, 2, 3] ∧
    listedIds (ListBlog fixedWidthCodec (runCalls fixedWidthCodec Bucket.empty
      [.create { Blog := some axlBlog }, .create { Blog := some axlBlog },
        .delete { BlogId := 1 }, .create { Blog := some axlBlog }])).2 = [2, 3] ∧
    ((∀ a b, a < 2 ^ 64 → b < 2 ^ 64 →
      (bytesCompare (uitob a) (uitob b) = Ordering.lt ↔ a < b)) ∧
    ∃ sent, ListBlog fixedWidthCodec (runCalls fixedWidthCodec Bucket.empty
        [.create { Blog := some axlBlog }, .create { Blog := some axlBlog },
          .delete { BlogId := 1 }, .create { Blog := some axlBlog }]) = (.ok (), sent) ∧
      (listedIds sent).Pairwise (fun a b => a < b) ∧
      (listedIds sent).Sublist (assignedIds fixedWidthCodec Bucket.empty
        [.create { Blog := some axlBlog }, .create { Blog := some axlBlog },
          .delete { BlogId := 1 }, .create { Blog := some axlBlog }])) :=
  ⟨rfl, rfl, ListBlog_order fixedWidthCodec fixedWidthCodec_roundTrips _
    (by
      intro c hc
      simp only [List.mem_cons, List.mem_singleton, List.not_mem_nil, or_false] at hc
      rcases hc with rfl | rfl | rfl | rfl <;> simp [Call.WellTyped, getId, axlBlog])
    (by decide)⟩

end BlogServer
